import Mathlib

/-!
Verification of the Lightning protocol core (window scheduler, protocol state
machine, simulator message forwarding) against its natural-language
specification.  All definitions are shallow embeddings of the Rust sources in
`components/protocol/lightning` and `components/simulator`.
-/

namespace Lightning

/-! ## Protocol parameters (lib.rs) -/

def MS_PER_MIN : Nat := 60 * 1000

def BEACON_INTERVAL_MS : Nat := 30 * 1000

def CHILD_DATA_INTERVAL_MIN : Nat := 5

def NUM_CHANNELS : Nat := 8

def MAX_CHILDREN : Nat := 6

def MAX_DESCENDANTS : Nat := 16

def MAX_WINDOWS : Nat := MAX_CHILDREN + 2

def MAX_BEACONS_TO_COLLECT : Nat := 16

def RESPONSE_LISTEN_DURATION_MS : Nat := 200

def MIN_WINDOW_CLEARANCE : Nat := 300

def DATA_RECEIVE_WINDOW : Nat := 350

def RANDOM_CONNECT_RANGE_MS : Nat := 400

def CONNECT_RESPONSE_DELAY_MS : Nat := 100

def CLOCK_DRIFT_PPM : Nat := 30

def BEST_BEACON_LISTEN_TIME : Nat := MIN_WINDOW_CLEARANCE * 3

def SEND_DELAY : Nat := 5

/-- `adjust_for_clock_inaccuracies` (lib.rs): extend a duration by the drift
budget.  `u64` arithmetic; no overflow at the durations the protocol uses. -/
def adjust (d : Nat) : Nat := d * (1000000 + CLOCK_DRIFT_PPM) / 1000000

/-- `adjust_for_clock_inaccuracies_sub` (lib.rs): shrink a duration by the
drift budget. -/
def adjustSub (d : Nat) : Nat := d * (1000000 - CLOCK_DRIFT_PPM) / 1000000

/-! ## Window scheduler (window.rs) -/

/-- `WindowKind` (window.rs). -/
inductive WindowKind where
  | beacon
  | child
  | parent
deriving DecidableEq, Repr

/-- `WindowKind::duration` for the non-test build (window.rs lines 31-42). -/
def WindowKind.durationProd : WindowKind → Nat
  | .beacon =>
      RANDOM_CONNECT_RANGE_MS + CONNECT_RESPONSE_DELAY_MS
        + RESPONSE_LISTEN_DURATION_MS + 2 * SEND_DELAY
  | .parent => RESPONSE_LISTEN_DURATION_MS + SEND_DELAY
  | .child => DATA_RECEIVE_WINDOW + SEND_DELAY

/-- `WindowKind::duration` for the test build (window.rs lines 308-316),
used by the unit tests and by the concrete scenario of spec item S6. -/
def WindowKind.durationTest : WindowKind → Nat
  | .beacon => 200
  | .parent => 100
  | .child => 100

/-- `Window` (window.rs).  `start` is a `TimeMs` (`u64`); times stay far from
`2^64` in every reachable run, so we embed them as `Nat`. -/
structure Window where
  kind : WindowKind
  start : Nat
deriving DecidableEq, Repr

/-- `Window::end`: start plus the duration of the window's kind. -/
def Window.wEnd (dur : WindowKind → Nat) (w : Window) : Nat := w.start + dur w.kind

/-- `u64::div_ceil`. -/
def ceilDiv (a b : Nat) : Nat := (a + b - 1) / b

/-- The `delay_window` closure in `Window::delay` (window.rs line 72): advance
`start` by the least multiple of `increment` that reaches `time`
(`start + increment * (time.saturating_sub(start)).div_ceil(increment)`). -/
def delayTo (start increment time : Nat) : Nat :=
  start + increment * ceilDiv (time - start) increment

/-- The gap-scanning loop of `Window::delay` (window.rs lines 77-93): walk the
gaps between consecutive queued windows, keeping `clearance` on both sides,
and return the first delayed start that fits; if none fits, place the window
after the end of the last queued window plus clearance. -/
def delayFrom (dur : WindowKind → Nat) (clearance increment : Nat) (w : Window) :
    Nat → List Window → Nat
  | prevEnd, [] => delayTo w.start increment (prevEnd + clearance)
  | prevEnd, next :: rest =>
      let gapLo := prevEnd + clearance
      let gapHi := next.start - clearance
      let ds := delayTo w.start increment gapLo
      if gapLo ≤ ds ∧ ds ≤ gapHi ∧ gapLo ≤ ds + dur w.kind ∧ ds + dur w.kind ≤ gapHi
      then ds
      else delayFrom dur clearance increment w (next.wEnd dur) rest

/-- `Window::delay` (window.rs lines 57-94), returning the new `start`.  The
queue argument is the scheduler's sorted window list. -/
def delayStart (dur : WindowKind → Nat) (clearance increment : Nat) (w : Window) :
    List Window → Nat
  | [] => w.start
  | first :: rest =>
      if w.wEnd dur + clearance ≤ first.start then w.start
      else delayFrom dur clearance increment w (first.wEnd dur) rest

/-- `Window::delay` as a window-to-window map. -/
def delayWin (dur : WindowKind → Nat) (clearance increment : Nat) (w : Window)
    (q : List Window) : Window :=
  { w with start := delayStart dur clearance increment w q }

/-- `Window::get_offset_min` (window.rs lines 99-103): offset of the window
from `time` in whole minutes; the source asserts the offset has no fractional
minutes (and `u64` subtraction requires `time ≤ start`), so other inputs
panic, which we embed as `none`. -/
def getOffsetMin (w : Window) (time : Nat) : Option Nat :=
  if time ≤ w.start ∧ (w.start - time) % MS_PER_MIN = 0
  then some ((w.start - time) / MS_PER_MIN)
  else none

/-- The overlap test of `Windows::pop_overlapping_window` (window.rs lines
248-251): two windows conflict when they are not separated by `clearance`. -/
def overlapsB (dur : WindowKind → Nat) (clearance : Nat) (nw w : Window) : Bool :=
  !(decide (nw.wEnd dur + clearance ≤ w.start) || decide (nw.start ≥ w.wEnd dur + clearance))

/-- `find_mut(p).map(|w| w.pop())` on the sorted linked list: remove and
return the first (earliest) element satisfying `p`, together with the
remaining queue. -/
def popFirst (p : Window → Bool) : List Window → Option (Window × List Window)
  | [] => none
  | w :: ws =>
      if p w then some (w, ws)
      else (popFirst p ws).map fun r => (r.1, w :: r.2)

/-- Insertion into the sorted linked list (`heapless::sorted_linked_list`
`push` with the `Min` ordering on `Window`, which compares `start`). -/
def insertW (w : Window) : List Window → List Window
  | [] => [w]
  | x :: xs => if w.start ≤ x.start then w :: x :: xs else x :: insertW w xs

/-- Outcome of `Windows::push`: success, the capacity panic of
`queue.push(..).unwrap()`, the `unreachable!()` panic on a Parent-vs-Parent or
Child-vs-Child conflict, or exhaustion of the recursion fuel (shown below to
be impossible for the fuel `Windows::push` is run with). -/
inductive PushOut where
  | ok (queue : List Window)
  | capacity
  | conflict
  | fuelOut
deriving DecidableEq, Repr

/-- The conflict-resolution loop of `Windows::push` (window.rs lines 173-204).
`cap` is the queue capacity (`MAX_WINDOWS` in the source; a relaxed capacity
is used below to characterise when the capacity panic fires).  The loop of
the source terminates because every iteration removes one window overlapping
the new one; we mirror it with explicit fuel. -/
def pushLoop (dur : WindowKind → Nat) (clearance cap : Nat) :
    Nat → List Window → Window → PushOut
  | 0, _, _ => .fuelOut
  | fuel + 1, q, nw =>
      match popFirst (overlapsB dur clearance nw) q with
      | none => if q.length < cap then .ok (insertW nw q) else .capacity
      | some (ov, rem) =>
        match nw.kind, ov.kind with
        | _, .beacon =>
            let b := delayWin dur clearance 1 { ov with start := nw.wEnd dur + clearance } rem
            if rem.length < cap then pushLoop dur clearance cap fuel (insertW b rem) nw
            else .capacity
        | .beacon, _ =>
            if rem.length < cap then
              let q1 := insertW ov rem
              let nw' := delayWin dur clearance 1 nw q1
              if q1.length < cap then .ok (insertW nw' q1) else .capacity
            else .capacity
        | .child, .parent =>
            if rem.length < cap then .ok (insertW ov rem) else .capacity
        | .parent, .child => pushLoop dur clearance cap fuel rem nw
        | .parent, .parent => .conflict
        | .child, .child => .conflict

/-- `Windows::push` (window.rs lines 170-207). -/
def pushW (dur : WindowKind → Nat) (clearance cap : Nat) (q : List Window)
    (nw : Window) : PushOut :=
  pushLoop dur clearance cap (q.length + 1) q nw

/-- `Windows::pop` (window.rs lines 210-212): `queue.pop().unwrap()`; fails
(panics) on an empty queue. -/
def popW : List Window → Option (Window × List Window)
  | [] => none
  | w :: ws => some (w, ws)

/-- `Windows::next` (window.rs lines 222-224): start of the earliest window;
panics (none) on an empty queue. -/
def nextStartW : List Window → Option Nat
  | [] => none
  | w :: _ => some w.start

/-- `Windows::pop_kind` (window.rs lines 215-219). -/
def popKindW (k : WindowKind) (q : List Window) : Option Window × List Window :=
  match popFirst (fun w => w.kind == k) q with
  | none => (none, q)
  | some (w, rem) => (some w, rem)

/-- `Windows::next_kind` (window.rs lines 227-234). -/
def nextKindW (k : WindowKind) (q : List Window) : Option Nat :=
  (q.find? fun w => w.kind == k).map (·.start)

/-- `Windows::is_full` (window.rs lines 237-243). -/
def isFullW (q : List Window) : Bool :=
  (q.filter fun w => w.kind == .child).length == MAX_CHILDREN

/-- The clearance rule between two windows, in queue order. -/
def rule (dur : WindowKind → Nat) (clearance : Nat) (a b : Window) : Prop :=
  a.start + dur a.kind + clearance ≤ b.start

/-- Separation: the two windows do not overlap (in either order). -/
def sep (dur : WindowKind → Nat) (clearance : Nat) (x y : Window) : Prop :=
  y.start + dur y.kind + clearance ≤ x.start ∨ x.start + dur x.kind + clearance ≤ y.start

/-- States of the window queue produced by a sequence of successful
`push`/`pop` operations starting from `Windows::new(clearance)`. -/
inductive Reach (dur : WindowKind → Nat) (clearance : Nat) : List Window → Prop where
  | empty : Reach dur clearance []
  | push {q q' : List Window} {w : Window} : Reach dur clearance q →
      pushW dur clearance MAX_WINDOWS q w = .ok q' → Reach dur clearance q'
  | pop {q : List Window} {w : Window} {q' : List Window} : Reach dur clearance q →
      popW q = some (w, q') → Reach dur clearance q'

/-! ## Scheduler lemmas -/

theorem le_mul_ceilDiv (a b : Nat) (hb : 0 < b) : a ≤ b * ceilDiv a b := by
  unfold ceilDiv
  have h := Nat.div_add_mod (a + b - 1) b
  have h2 := Nat.mod_lt (a + b - 1) hb
  omega

theorem delayTo_ge_start (start inc t : Nat) : start ≤ delayTo start inc t :=
  Nat.le_add_right _ _

theorem delayTo_ge_time (start inc t : Nat) (h : 0 < inc) : t ≤ delayTo start inc t := by
  have := le_mul_ceilDiv (t - start) inc h
  unfold delayTo
  omega

theorem delayFrom_ge_start (dur : WindowKind → Nat) (c inc : Nat) (w : Window) :
    ∀ (prevEnd : Nat) (l : List Window), w.start ≤ delayFrom dur c inc w prevEnd l := by
  intro prevEnd l
  induction l generalizing prevEnd with
  | nil => exact delayTo_ge_start _ _ _
  | cons next rest ih =>
    simp only [delayFrom]
    split
    · exact delayTo_ge_start _ _ _
    · exact ih _

theorem delayStart_ge_start (dur : WindowKind → Nat) (c inc : Nat) (w : Window)
    (q : List Window) : w.start ≤ delayStart dur c inc w q := by
  cases q with
  | nil => exact Nat.le_refl _
  | cons first rest =>
    simp only [delayStart]
    split
    · exact Nat.le_refl _
    · exact delayFrom_ge_start dur c inc w _ rest

theorem delayFrom_sep (dur : WindowKind → Nat) (c inc : Nat) (w : Window) (hinc : 0 < inc) :
    ∀ (l : List Window) (prevEnd : Nat), List.Pairwise (rule dur c) l →
      (∀ y ∈ l, prevEnd + c ≤ y.start) →
      prevEnd + c ≤ delayFrom dur c inc w prevEnd l ∧
        ∀ y ∈ l, y.start + dur y.kind + c ≤ delayFrom dur c inc w prevEnd l ∨
          delayFrom dur c inc w prevEnd l + dur w.kind + c ≤ y.start := by
  intro l
  induction l with
  | nil =>
    intro prevEnd _ _
    refine ⟨delayTo_ge_time _ _ _ hinc, by simp⟩
  | cons next rest ih =>
    intro prevEnd hpw hpre
    have hrule : ∀ y ∈ rest, next.start + dur next.kind + c ≤ y.start :=
      fun y hy => (List.pairwise_cons.mp hpw).1 y hy
    have hnext : prevEnd + c ≤ next.start := hpre next (List.mem_cons_self _ _)
    simp only [delayFrom, Window.wEnd]
    split
    · rename_i hcond
      obtain ⟨h1, h2, h3, h4⟩ := hcond
      refine ⟨h1, ?_⟩
      intro y hy
      rcases List.mem_cons.mp hy with hy | hy
      · subst hy
        right
        omega
      · right
        have := hrule y hy
        omega
    · have hih := ih (next.start + dur next.kind) (List.pairwise_cons.mp hpw).2
        (fun y hy => by have := hrule y hy; omega)
      obtain ⟨hge, hsep⟩ := hih
      constructor
      · omega
      · intro y hy
        rcases List.mem_cons.mp hy with hy | hy
        · subst hy
          left
          omega
        · exact hsep y hy

theorem delayStart_sep (dur : WindowKind → Nat) (c inc : Nat) (w : Window)
    (q : List Window) (hinc : 0 < inc) (hq : List.Pairwise (rule dur c) q) :
    ∀ y ∈ q, y.start + dur y.kind + c ≤ delayStart dur c inc w q ∨
      delayStart dur c inc w q + dur w.kind + c ≤ y.start := by
  cases q with
  | nil => simp
  | cons first rest =>
    simp only [delayStart, Window.wEnd]
    split
    · rename_i hfits
      intro y hy
      rcases List.mem_cons.mp hy with hy | hy
      · subst hy
        right
        omega
      · right
        have := (List.pairwise_cons.mp hq).1 y hy
        unfold rule at this
        omega
    · have h := delayFrom_sep dur c inc w hinc rest (first.start + dur first.kind)
        (List.pairwise_cons.mp hq).2
        (fun y hy => by
          have := (List.pairwise_cons.mp hq).1 y hy
          unfold rule at this
          omega)
      intro y hy
      rcases List.mem_cons.mp hy with hy | hy
      · subst hy
        left
        have := h.1
        omega
      · exact h.2 y hy

theorem insertW_perm (w : Window) : ∀ l : List Window, (insertW w l).Perm (w :: l) := by
  intro l
  induction l with
  | nil => exact List.Perm.refl _
  | cons x xs ih =>
    simp only [insertW]
    split
    · exact List.Perm.refl _
    · exact (List.Perm.cons x ih).trans (List.Perm.swap w x xs)

theorem mem_insertW {z w : Window} {l : List Window} :
    z ∈ insertW w l ↔ z = w ∨ z ∈ l := by
  rw [(insertW_perm w l).mem_iff]
  simp

theorem length_insertW (w : Window) (l : List Window) :
    (insertW w l).length = l.length + 1 :=
  (insertW_perm w l).length_eq

theorem countP_insertW (p : Window → Bool) (w : Window) (l : List Window) :
    (insertW w l).countP p = l.countP p + if p w then 1 else 0 := by
  rw [(insertW_perm w l).countP_eq, List.countP_cons]

theorem insertW_pairwise {dur : WindowKind → Nat} {c : Nat} (hdur : ∀ k, 0 < dur k)
    (x : Window) : ∀ q : List Window, List.Pairwise (rule dur c) q →
      (∀ y ∈ q, sep dur c x y) → List.Pairwise (rule dur c) (insertW x q) := by
  intro q
  induction q with
  | nil =>
    intro _ _
    simp [insertW]
  | cons y l ih =>
    intro hpw hsep
    have hyl := List.pairwise_cons.mp hpw
    have hsy : sep dur c x y := hsep y (List.mem_cons_self _ _)
    simp only [insertW]
    split
    · rename_i hle
      refine List.pairwise_cons.mpr ⟨?_, hpw⟩
      intro z hz
      have hdy := hdur y.kind
      have hdz := hdur z.kind
      rcases List.mem_cons.mp hz with hzy | hzl
      · rw [hzy]
        simp only [sep, rule] at *
        omega
      · have hs := hsep z (List.mem_cons.mpr (Or.inr hzl))
        have h2 := hyl.1 z hzl
        simp only [sep, rule] at *
        omega
    · rename_i hgt
      refine List.pairwise_cons.mpr
        ⟨?_, ih hyl.2 fun z hz => hsep z (List.mem_cons.mpr (Or.inr hz))⟩
      intro z hz
      have hdx := hdur x.kind
      rcases mem_insertW.mp hz with hzx | hzl
      · rw [hzx]
        simp only [sep, rule] at *
        omega
      · exact hyl.1 z hzl

theorem popFirst_none {p : Window → Bool} :
    ∀ {q : List Window}, popFirst p q = none → ∀ w ∈ q, p w = false := by
  intro q
  induction q with
  | nil => simp
  | cons x xs ih =>
    intro h w hw
    simp only [popFirst] at h
    by_cases hx : p x
    · simp [hx] at h
    · simp only [hx, if_neg, ite_false, Bool.false_eq_true] at h
      rcases List.mem_cons.mp hw with hw | hw
      · subst hw; exact Bool.of_not_eq_true hx
      · cases hpf : popFirst p xs with
        | none => exact ih hpf w hw
        | some r => rw [hpf] at h; simp at h

theorem popFirst_some {p : Window → Bool} :
    ∀ {q : List Window} {w : Window} {rem : List Window},
      popFirst p q = some (w, rem) →
      p w = true ∧ ∃ l₁ l₂, q = l₁ ++ w :: l₂ ∧ rem = l₁ ++ l₂ ∧ ∀ x ∈ l₁, p x = false := by
  intro q
  induction q with
  | nil => simp [popFirst]
  | cons x xs ih =>
    intro w rem h
    simp only [popFirst] at h
    by_cases hx : p x
    · simp only [hx, if_pos, ite_true, Option.some.injEq, Prod.mk.injEq] at h
      obtain ⟨hw, hrem⟩ := h
      subst hw; subst hrem
      exact ⟨hx, [], xs, by simp⟩
    · simp only [hx, ite_false, Bool.false_eq_true] at h
      cases hpf : popFirst p xs with
      | none => rw [hpf] at h; simp at h
      | some r =>
        rw [hpf] at h
        simp only [Option.map_some', Option.some.injEq] at h
        obtain ⟨w', rem'⟩ := r
        obtain ⟨hpw, l₁, l₂, hq, hrem, hl₁⟩ := ih hpf
        simp only [Prod.mk.injEq] at h
        refine ⟨by rw [← h.1]; exact hpw, x :: l₁, l₂, ?_, ?_, ?_⟩
        · simp [hq, h.1]
        · simp [← h.2, hrem]
        · intro z hz
          rcases List.mem_cons.mp hz with hz | hz
          · subst hz; exact Bool.of_not_eq_true hx
          · exact hl₁ z hz

theorem popFirst_sublist {p : Window → Bool} {q : List Window} {w : Window}
    {rem : List Window} (h : popFirst p q = some (w, rem)) : rem.Sublist q := by
  obtain ⟨_, l₁, l₂, hq, hrem, _⟩ := popFirst_some h
  subst hq; subst hrem
  exact List.Sublist.append_left (List.sublist_cons_self w l₂) l₁

theorem popFirst_mem {p : Window → Bool} {q : List Window} {w : Window}
    {rem : List Window} (h : popFirst p q = some (w, rem)) : w ∈ q := by
  obtain ⟨_, l₁, l₂, hq, _, _⟩ := popFirst_some h
  subst hq
  simp

theorem popFirst_perm {p : Window → Bool} {q : List Window} {w : Window}
    {rem : List Window} (h : popFirst p q = some (w, rem)) : q.Perm (w :: rem) := by
  obtain ⟨_, l₁, l₂, hq, hrem, _⟩ := popFirst_some h
  subst hq; subst hrem
  exact List.perm_middle

theorem insertW_popFirst {dur : WindowKind → Nat} {c : Nat} (hdur : ∀ k, 0 < dur k)
    {p : Window → Bool} {q : List Window} {w : Window} {rem : List Window}
    (hq : List.Pairwise (rule dur c) q) (h : popFirst p q = some (w, rem)) :
    insertW w rem = q := by
  obtain ⟨-, l₁, l₂, hqe, hrem, hl⟩ := popFirst_some h
  subst hqe; subst hrem
  clear h hl
  induction l₁ with
  | nil =>
    cases l₂ with
    | nil => rfl
    | cons z l₂' =>
      have hz : rule dur c w z := (List.pairwise_cons.mp hq).1 z (List.mem_cons_self _ _)
      simp only [rule] at hz
      simp only [List.nil_append, insertW]
      rw [if_pos (by omega)]
  | cons a l₁' ih =>
    rw [List.cons_append] at hq
    have hpc := List.pairwise_cons.mp hq
    have ha : rule dur c a w := hpc.1 w (by simp)
    have := hdur a.kind
    simp only [rule] at ha
    simp only [List.cons_append, insertW, List.append_eq]
    rw [if_neg (by omega), ih hpc.2]

theorem overlapsB_false_iff {dur : WindowKind → Nat} {c : Nat} {nw w : Window} :
    overlapsB dur c nw w = false ↔ sep dur c nw w := by
  unfold overlapsB sep Window.wEnd
  rcases le_or_lt (nw.start + dur nw.kind + c) w.start with h | h <;>
    rcases le_or_lt (w.start + dur w.kind + c) nw.start with h2 | h2 <;>
      simp_all

theorem delayWin_sep {dur : WindowKind → Nat} {c : Nat} (w : Window) (q : List Window)
    (hq : List.Pairwise (rule dur c) q) :
    ∀ y ∈ q, sep dur c (delayWin dur c 1 w q) y := by
  intro y hy
  have hs := delayStart_sep dur c 1 w q Nat.one_pos hq y hy
  simp only [sep, delayWin]
  rcases hs with h | h
  · exact Or.inl h
  · exact Or.inr h

theorem pushLoop_pairwise {dur : WindowKind → Nat} {c cap : Nat} (hdur : ∀ k, 0 < dur k) :
    ∀ (fuel : Nat) (q : List Window) (nw : Window) (q' : List Window),
      List.Pairwise (rule dur c) q → pushLoop dur c cap fuel q nw = .ok q' →
      List.Pairwise (rule dur c) q' := by
  intro fuel
  induction fuel with
  | zero => intro q nw q' _ h; simp [pushLoop] at h
  | succ fuel ih =>
    intro q nw q' hq h
    simp only [pushLoop] at h
    cases hpf : popFirst (overlapsB dur c nw) q with
    | none =>
      rw [hpf] at h
      dsimp only [] at h
      split at h
      · cases h
        exact insertW_pairwise hdur nw q hq fun y hy =>
          overlapsB_false_iff.mp (popFirst_none hpf y hy)
      · cases h
    | some r =>
      obtain ⟨ov, rem⟩ := r
      rw [hpf] at h
      dsimp only [] at h
      have hrem : List.Pairwise (rule dur c) rem :=
        List.Pairwise.sublist (popFirst_sublist hpf) hq
      have hreins : insertW ov rem = q := insertW_popFirst hdur hq hpf
      obtain ⟨nk, ns⟩ := nw
      obtain ⟨ok', os⟩ := ov
      cases nk <;> cases ok' <;> dsimp only [] at h
      -- new beacon vs existing beacon
      case beacon.beacon =>
        split at h
        · exact ih _ _ q' (insertW_pairwise hdur _ rem hrem (delayWin_sep _ rem hrem)) h
        · cases h
      -- new beacon vs existing child / parent: new beacon delayed
      case beacon.child =>
        split at h
        · rw [hreins] at h
          split at h
          · cases h
            exact insertW_pairwise hdur _ q hq (delayWin_sep _ q hq)
          · cases h
        · cases h
      case beacon.parent =>
        split at h
        · rw [hreins] at h
          split at h
          · cases h
            exact insertW_pairwise hdur _ q hq (delayWin_sep _ q hq)
          · cases h
        · cases h
      -- existing beacon delayed out of the way of the new child / parent
      case child.beacon =>
        split at h
        · exact ih _ _ q' (insertW_pairwise hdur _ rem hrem (delayWin_sep _ rem hrem)) h
        · cases h
      case parent.beacon =>
        split at h
        · exact ih _ _ q' (insertW_pairwise hdur _ rem hrem (delayWin_sep _ rem hrem)) h
        · cases h
      -- new child dropped, the popped parent reinserted
      case child.parent =>
        split at h
        · cases h
          rw [hreins]
          exact hq
        · cases h
      -- existing child dropped
      case parent.child => exact ih _ _ q' hrem h
      case parent.parent => cases h
      case child.child => cases h

theorem popW_pairwise {dur : WindowKind → Nat} {c : Nat} {q : List Window} {w : Window}
    {q' : List Window} (hq : List.Pairwise (rule dur c) q) (h : popW q = some (w, q')) :
    List.Pairwise (rule dur c) q' := by
  cases q with
  | nil => cases h
  | cons x xs =>
    simp only [popW, Option.some.injEq, Prod.mk.injEq] at h
    rw [← h.2]
    exact (List.pairwise_cons.mp hq).2

/-- C1: starting from an empty queue with clearance `c`, after every
successful `Windows::push` / `Windows::pop` the queue satisfies the clearance
rule `w_i.start + duration(w_i.kind) + c ≤ w_{i+1}.start` between every pair
of queued windows in queue order (in particular between adjacent ones), and
is strictly ordered by `start`.  `dur` is the duration table of the build
(production or test); both assign every kind a positive duration. -/
theorem reach_clearance_invariant {dur : WindowKind → Nat} {c : Nat}
    (hdur : ∀ k, 0 < dur k) {q : List Window} (h : Reach dur c q) :
    List.Pairwise (fun a b => a.start + dur a.kind + c ≤ b.start) q ∧
      List.Pairwise (fun a b : Window => a.start < b.start) q := by
  have hrule : List.Pairwise (rule dur c) q := by
    induction h with
    | empty => exact List.Pairwise.nil
    | push hre hp ih => exact pushLoop_pairwise hdur _ _ _ _ ih hp
    | pop hre hp ih => exact popW_pairwise ih hp
  refine ⟨hrule, hrule.imp fun {a b} hab => ?_⟩
  have := hdur a.kind
  unfold rule at hab
  omega

/-- Witness for C1 at the concrete S6 scenario queue (test durations,
clearance 50): push Beacon@1000 then Child@1000. -/
theorem reach_clearance_invariant_witness :
    List.Pairwise
      (fun a b : Window => a.start + WindowKind.durationTest a.kind + 50 ≤ b.start)
      [⟨.child, 1000⟩, ⟨.beacon, 1150⟩] ∧
    List.Pairwise (fun a b : Window => a.start < b.start)
      ([⟨.child, 1000⟩, ⟨.beacon, 1150⟩] : List Window) :=
  @reach_clearance_invariant WindowKind.durationTest 50
    (fun k => by cases k <;> decide) [⟨.child, 1000⟩, ⟨.beacon, 1150⟩]
    (@Reach.push WindowKind.durationTest 50 [⟨.beacon, 1000⟩]
      [⟨.child, 1000⟩, ⟨.beacon, 1150⟩] ⟨.child, 1000⟩
      (@Reach.push WindowKind.durationTest 50 [] [⟨.beacon, 1000⟩]
        ⟨.beacon, 1000⟩ Reach.empty (by decide))
      (by decide))

/-! ## Fuel sufficiency and the capacity characterisation of `push` -/

theorem overlapsB_delayed_false {dur : WindowKind → Nat} {c : Nat} (nw : Window)
    (k : WindowKind) (rem : List Window) :
    overlapsB dur c nw (delayWin dur c 1 ⟨k, nw.wEnd dur + c⟩ rem) = false := by
  rw [overlapsB_false_iff]
  have hge := delayStart_ge_start dur c 1 ⟨k, nw.wEnd dur + c⟩ rem
  simp only [sep, delayWin, Window.wEnd] at *
  omega

theorem countP_insertW_false {p : Window → Bool} {w : Window} {l : List Window}
    (h : p w = false) : (insertW w l).countP p = l.countP p := by
  rw [countP_insertW, h]
  simp

theorem pushLoop_ne_fuelOut {dur : WindowKind → Nat} {c cap : Nat} :
    ∀ (fuel : Nat) (q : List Window) (nw : Window),
      q.countP (overlapsB dur c nw) < fuel →
      pushLoop dur c cap fuel q nw ≠ .fuelOut := by
  intro fuel
  induction fuel with
  | zero => intro q nw h; omega
  | succ fuel ih =>
    intro q nw hcnt
    simp only [pushLoop]
    cases hpf : popFirst (overlapsB dur c nw) q with
    | none => dsimp only []; split <;> simp
    | some r =>
      obtain ⟨ov, rem⟩ := r
      dsimp only []
      have hcount : q.countP (overlapsB dur c nw) = rem.countP (overlapsB dur c nw) + 1 := by
        obtain ⟨hp, l₁, l₂, hqe, hreme, -⟩ := popFirst_some hpf
        subst hqe; subst hreme
        simp only [List.countP_append, List.countP_cons, hp, if_true]
        omega
      obtain ⟨nk, ns⟩ := nw
      obtain ⟨ok', os⟩ := ov
      cases nk <;> cases ok' <;> dsimp only []
      case beacon.beacon =>
        split
        · refine ih _ _ ?_
          rw [countP_insertW_false (overlapsB_delayed_false _ _ _)]
          omega
        · simp
      case beacon.child =>
        split
        · split <;> simp
        · simp
      case beacon.parent =>
        split
        · split <;> simp
        · simp
      case child.beacon =>
        split
        · refine ih _ _ ?_
          rw [countP_insertW_false (overlapsB_delayed_false _ _ _)]
          omega
        · simp
      case parent.beacon =>
        split
        · refine ih _ _ ?_
          rw [countP_insertW_false (overlapsB_delayed_false _ _ _)]
          omega
        · simp
      case child.parent => split <;> simp
      case parent.child =>
        refine ih _ _ ?_
        have : rem.countP (overlapsB dur c ⟨.parent, ns⟩) ≤ q.countP (overlapsB dur c ⟨.parent, ns⟩) := by
          omega
        omega
      case parent.parent => simp
      case child.child => simp

theorem pushW_ne_fuelOut {dur : WindowKind → Nat} {c cap : Nat} (q : List Window)
    (nw : Window) : pushW dur c cap q nw ≠ .fuelOut :=
  pushLoop_ne_fuelOut _ q nw (Nat.lt_succ_of_le (List.countP_le_length _))

theorem pushLoop_fuel_eq {dur : WindowKind → Nat} {c cap : Nat} :
    ∀ (f₁ f₂ : Nat) (q : List Window) (nw : Window),
      q.countP (overlapsB dur c nw) < f₁ → q.countP (overlapsB dur c nw) < f₂ →
      pushLoop dur c cap f₁ q nw = pushLoop dur c cap f₂ q nw := by
  intro f₁
  induction f₁ with
  | zero => intro f₂ q nw h _; exact absurd h (Nat.not_lt_zero _)
  | succ f₁ ih =>
    intro f₂ q nw h₁ h₂
    cases f₂ with
    | zero => exact absurd h₂ (Nat.not_lt_zero _)
    | succ f₂ =>
      simp only [pushLoop]
      cases hpf : popFirst (overlapsB dur c nw) q with
      | none => rfl
      | some r =>
        obtain ⟨ov, rem⟩ := r
        dsimp only []
        have hcount : q.countP (overlapsB dur c nw) = rem.countP (overlapsB dur c nw) + 1 := by
          obtain ⟨hp, l₁, l₂, hqe, hreme, -⟩ := popFirst_some hpf
          subst hqe; subst hreme
          simp only [List.countP_append, List.countP_cons, hp, if_true]
          omega
        obtain ⟨nk, ns⟩ := nw
        obtain ⟨ok', os⟩ := ov
        cases nk <;> cases ok' <;> dsimp only []
        case beacon.beacon =>
          split
          · refine ih _ _ _ ?_ ?_ <;>
              (rw [countP_insertW_false (overlapsB_delayed_false _ _ _)]; omega)
          · rfl
        case child.beacon =>
          split
          · refine ih _ _ _ ?_ ?_ <;>
              (rw [countP_insertW_false (overlapsB_delayed_false _ _ _)]; omega)
          · rfl
        case parent.beacon =>
          split
          · refine ih _ _ _ ?_ ?_ <;>
              (rw [countP_insertW_false (overlapsB_delayed_false _ _ _)]; omega)
          · rfl
        case parent.child => exact ih _ _ _ (by omega) (by omega)

theorem pushLoop_cap_succ {dur : WindowKind → Nat} {c cap : Nat} :
    ∀ (fuel : Nat) (q : List Window) (nw : Window), q.length ≤ cap →
      pushLoop dur c cap fuel q nw =
        (match pushLoop dur c (cap + 1) fuel q nw with
         | .ok q' => if q'.length ≤ cap then .ok q' else .capacity
         | r => r) := by
  intro fuel
  induction fuel with
  | zero => intro q nw _; rfl
  | succ fuel ih =>
    intro q nw hlen
    simp only [pushLoop]
    cases hpf : popFirst (overlapsB dur c nw) q with
    | none =>
      dsimp only []
      rw [if_pos (show q.length < cap + 1 by omega)]
      by_cases hlt : q.length < cap
      · rw [if_pos hlt]
        dsimp only []
        simp only [length_insertW]
        rw [if_pos (show q.length + 1 ≤ cap by omega)]
      · rw [if_neg hlt]
        dsimp only []
        simp only [length_insertW]
        rw [if_neg (show ¬q.length + 1 ≤ cap by omega)]
    | some r =>
      obtain ⟨ov, rem⟩ := r
      have hql : q.length = rem.length + 1 := by
        simpa using (popFirst_perm hpf).length_eq
      obtain ⟨nk, ns⟩ := nw
      obtain ⟨ok', os⟩ := ov
      cases nk <;> cases ok' <;> dsimp only []
      case beacon.beacon =>
        rw [if_pos (show rem.length < cap by omega),
          if_pos (show rem.length < cap + 1 by omega)]
        exact ih _ _ (by rw [length_insertW]; omega)
      case beacon.child =>
        rw [if_pos (show rem.length < cap by omega),
          if_pos (show rem.length < cap + 1 by omega)]
        simp only [length_insertW]
        by_cases hlt : rem.length + 1 < cap
        · rw [if_pos hlt, if_pos (show rem.length + 1 < cap + 1 by omega)]
          dsimp only []
          simp only [length_insertW]
          rw [if_pos (show rem.length + 1 + 1 ≤ cap by omega)]
        · rw [if_neg hlt, if_pos (show rem.length + 1 < cap + 1 by omega)]
          dsimp only []
          simp only [length_insertW]
          rw [if_neg (show ¬rem.length + 1 + 1 ≤ cap by omega)]
      case beacon.parent =>
        rw [if_pos (show rem.length < cap by omega),
          if_pos (show rem.length < cap + 1 by omega)]
        simp only [length_insertW]
        by_cases hlt : rem.length + 1 < cap
        · rw [if_pos hlt, if_pos (show rem.length + 1 < cap + 1 by omega)]
          dsimp only []
          simp only [length_insertW]
          rw [if_pos (show rem.length + 1 + 1 ≤ cap by omega)]
        · rw [if_neg hlt, if_pos (show rem.length + 1 < cap + 1 by omega)]
          dsimp only []
          simp only [length_insertW]
          rw [if_neg (show ¬rem.length + 1 + 1 ≤ cap by omega)]
      case child.beacon =>
        rw [if_pos (show rem.length < cap by omega),
          if_pos (show rem.length < cap + 1 by omega)]
        exact ih _ _ (by rw [length_insertW]; omega)
      case parent.beacon =>
        rw [if_pos (show rem.length < cap by omega),
          if_pos (show rem.length < cap + 1 by omega)]
        exact ih _ _ (by rw [length_insertW]; omega)
      case child.parent =>
        rw [if_pos (show rem.length < cap by omega),
          if_pos (show rem.length < cap + 1 by omega)]
        dsimp only []
        simp only [length_insertW]
        rw [if_pos (show rem.length + 1 ≤ cap by omega)]
      case parent.child => exact ih _ _ (by omega)

theorem pushLoop_relaxed_ne_capacity {dur : WindowKind → Nat} {c cap : Nat} :
    ∀ (fuel : Nat) (q : List Window) (nw : Window), q.length ≤ cap →
      pushLoop dur c (cap + 1) fuel q nw ≠ .capacity := by
  intro fuel
  induction fuel with
  | zero => intro q nw _; simp [pushLoop]
  | succ fuel ih =>
    intro q nw hlen
    simp only [pushLoop]
    cases hpf : popFirst (overlapsB dur c nw) q with
    | none =>
      dsimp only []
      rw [if_pos (by omega)]
      simp
    | some r =>
      obtain ⟨ov, rem⟩ := r
      have hql : q.length = rem.length + 1 := by
        simpa using (popFirst_perm hpf).length_eq
      obtain ⟨nk, ns⟩ := nw
      obtain ⟨ok', os⟩ := ov
      cases nk <;> cases ok' <;> dsimp only []
      case beacon.beacon =>
        rw [if_pos (by omega)]
        exact ih _ _ (by rw [length_insertW]; omega)
      case beacon.child =>
        rw [if_pos (by omega), if_pos (by rw [length_insertW]; omega)]
        simp
      case beacon.parent =>
        rw [if_pos (by omega), if_pos (by rw [length_insertW]; omega)]
        simp
      case child.beacon =>
        rw [if_pos (by omega)]
        exact ih _ _ (by rw [length_insertW]; omega)
      case parent.beacon =>
        rw [if_pos (by omega)]
        exact ih _ _ (by rw [length_insertW]; omega)
      case child.parent =>
        rw [if_pos (by omega)]
        simp
      case parent.child => exact ih _ _ (by omega)
      case parent.parent => simp
      case child.child => simp

/-- C8 (amended): for a well-sized queue (at most `MAX_WINDOWS = 8` entries),
`Windows::push` fails with the capacity panic exactly when the resolved
insertion would leave more than `MAX_WINDOWS` windows (compared against the
same push run with a relaxed capacity); it can also fail with the
`unreachable!()` panic on a Parent-vs-Parent or Child-vs-Child conflict; in
every other case it succeeds, and `Windows::pop` fails exactly when the queue
is empty.  Both failures are panics, never silent truncation. -/
theorem push_pop_failure_characterization {dur : WindowKind → Nat} {c : Nat}
    (q : List Window) (nw : Window) (hlen : q.length ≤ MAX_WINDOWS) :
    (pushW dur c MAX_WINDOWS q nw = .capacity ↔
      ∃ q', pushW dur c (MAX_WINDOWS + 1) q nw = .ok q' ∧ MAX_WINDOWS < q'.length) ∧
    (∀ q', pushW dur c MAX_WINDOWS q nw = .ok q' ↔
      pushW dur c (MAX_WINDOWS + 1) q nw = .ok q' ∧ q'.length ≤ MAX_WINDOWS) ∧
    (pushW dur c MAX_WINDOWS q nw = .conflict ↔
      pushW dur c (MAX_WINDOWS + 1) q nw = .conflict) ∧
    pushW dur c MAX_WINDOWS q nw ≠ .fuelOut ∧
    (popW q = none ↔ q = []) := by
  have heq := @pushLoop_cap_succ dur c MAX_WINDOWS (q.length + 1) q nw hlen
  have hnc := @pushLoop_relaxed_ne_capacity dur c MAX_WINDOWS (q.length + 1) q nw hlen
  have hnf := @pushW_ne_fuelOut dur c (MAX_WINDOWS + 1) q nw
  unfold pushW at *
  rw [heq]
  have hpop : popW q = none ↔ q = [] := by cases q <;> simp [popW]
  cases hrel : pushLoop dur c (MAX_WINDOWS + 1) (q.length + 1) q nw with
  | ok q' =>
    dsimp only []
    by_cases hle : q'.length ≤ MAX_WINDOWS
    · rw [if_pos hle]
      refine ⟨?_, ?_, Iff.rfl, by simp, hpop⟩
      · constructor
        · intro h; cases h
        · rintro ⟨q2, hq2, hlt⟩
          injection hq2 with he
          subst he
          omega
      · intro q2
        constructor
        · intro h
          refine ⟨h, ?_⟩
          injection h with he
          subst he
          exact hle
        · intro h
          exact h.1
    · rw [if_neg hle]
      refine ⟨⟨fun _ => ⟨q', rfl, by omega⟩, fun _ => rfl⟩, ?_, ?_, by simp, hpop⟩
      · intro q2
        constructor
        · intro h; cases h
        · rintro ⟨h, hh⟩
          injection h with he
          subst he
          omega
      · constructor <;> intro h <;> cases h
  | capacity => exact absurd hrel hnc
  | conflict =>
    exact ⟨by simp, by simp, Iff.rfl, by simp, hpop⟩
  | fuelOut => exact absurd hrel hnf

/-- Witness for C8 (amended) at the empty queue with test durations. -/
theorem push_pop_failure_characterization_witness :
    ((pushW WindowKind.durationTest 50 MAX_WINDOWS [] ⟨.beacon, 0⟩ = .capacity ↔
      ∃ q', pushW WindowKind.durationTest 50 (MAX_WINDOWS + 1) [] ⟨.beacon, 0⟩ = .ok q' ∧
        MAX_WINDOWS < q'.length) ∧
    (∀ q', pushW WindowKind.durationTest 50 MAX_WINDOWS [] ⟨.beacon, 0⟩ = .ok q' ↔
      pushW WindowKind.durationTest 50 (MAX_WINDOWS + 1) [] ⟨.beacon, 0⟩ = .ok q' ∧
        q'.length ≤ MAX_WINDOWS) ∧
    (pushW WindowKind.durationTest 50 MAX_WINDOWS [] ⟨.beacon, 0⟩ = .conflict ↔
      pushW WindowKind.durationTest 50 (MAX_WINDOWS + 1) [] ⟨.beacon, 0⟩ = .conflict) ∧
    pushW WindowKind.durationTest 50 MAX_WINDOWS [] ⟨.beacon, 0⟩ ≠ .fuelOut ∧
    (popW [] = none ↔ ([] : List Window) = [])) :=
  push_pop_failure_characterization [] ⟨.beacon, 0⟩ (by decide)

/-- C8 (counterexample): pushing a Parent window that overlaps a queued
Parent window fails with the `unreachable!()` panic even though the queue is
far below capacity, so `push` does not succeed in every case other than
capacity excess. -/
theorem push_parent_parent_conflict_counterexample :
    pushW WindowKind.durationTest 50 MAX_WINDOWS [⟨.parent, 100⟩] ⟨.parent, 100⟩ =
      .conflict ∧
    ([⟨.parent, 100⟩] : List Window).length + 1 ≤ MAX_WINDOWS := by
  decide

/-- C2: kind-priority overlap resolution of `Windows::push`, for every push on
every clearance-separated queue: whenever the resolution loop finds a queued
window `ov` not separated from the new window `nw` by `clearance` (the
`popFirst` equation is exactly the loop's find step), then (1) if `ov` is a
Beacon it is re-inserted delayed by the 1 ms-increment `Window::delay` —
started past the new window's end plus clearance, hence separated from the
new window and from every remaining queued window — and the push continues on
the updated queue; (2) if the new window is a Beacon and `ov` is not, the new
Beacon is itself delayed by the 1 ms-increment `Window::delay` to a start
separated from every queued window, and inserted; (3) a new Child overlapping
a queued Parent is dropped, leaving the queue unchanged; (4) a new Parent
overlapping a queued Child drops that Child and pushes onto the remainder;
and in particular (S6) pushing Beacon@1000 then Child@1000 with clearance 50
and the test durations {Beacon 200, Child 100, Parent 100} yields pop order
Child@1000 then Beacon@1150. -/
theorem push_overlap_resolution_policy {dur : WindowKind → Nat} {c cap : Nat}
    (hdur : ∀ k, 0 < dur k) (q rem : List Window) (nw ov : Window)
    (hq : List.Pairwise (rule dur c) q)
    (hpf : popFirst (overlapsB dur c nw) q = some (ov, rem)) :
    (ov.kind = .beacon →
      (delayWin dur c 1 { ov with start := nw.wEnd dur + c } rem).kind = .beacon ∧
      nw.wEnd dur + c ≤
        (delayWin dur c 1 { ov with start := nw.wEnd dur + c } rem).start ∧
      (∀ y ∈ rem,
        sep dur c (delayWin dur c 1 { ov with start := nw.wEnd dur + c } rem) y) ∧
      pushW dur c cap q nw =
        (if rem.length < cap then
          pushW dur c cap
            (insertW (delayWin dur c 1 { ov with start := nw.wEnd dur + c } rem) rem) nw
         else .capacity)) ∧
    (nw.kind = .beacon → ov.kind ≠ .beacon →
      (delayWin dur c 1 nw q).kind = .beacon ∧
      nw.start ≤ (delayWin dur c 1 nw q).start ∧
      (∀ y ∈ q, sep dur c (delayWin dur c 1 nw q) y) ∧
      pushW dur c cap q nw =
        (if rem.length < cap then
          (if q.length < cap then .ok (insertW (delayWin dur c 1 nw q) q)
           else .capacity)
         else .capacity)) ∧
    (nw.kind = .child → ov.kind = .parent →
      pushW dur c cap q nw = (if rem.length < cap then .ok q else .capacity)) ∧
    (nw.kind = .parent → ov.kind = .child →
      pushW dur c cap q nw = pushW dur c cap rem nw) ∧
    (pushW WindowKind.durationTest 50 MAX_WINDOWS [] ⟨.beacon, 1000⟩ =
       .ok [⟨.beacon, 1000⟩] ∧
     pushW WindowKind.durationTest 50 MAX_WINDOWS [⟨.beacon, 1000⟩] ⟨.child, 1000⟩ =
       .ok [⟨.child, 1000⟩, ⟨.beacon, 1150⟩] ∧
     popW [⟨.child, 1000⟩, ⟨.beacon, 1150⟩] =
       some (⟨.child, 1000⟩, [⟨.beacon, 1150⟩]) ∧
     popW [⟨.beacon, 1150⟩] = some (⟨.beacon, 1150⟩, [])) := by
  have hql : q.length = rem.length + 1 := by
    simpa using (popFirst_perm hpf).length_eq
  have hremp : List.Pairwise (rule dur c) rem :=
    List.Pairwise.sublist (popFirst_sublist hpf) hq
  have hcnt : rem.countP (overlapsB dur c nw) ≤ rem.length := List.countP_le_length _
  refine ⟨?_, ?_, ?_, ?_, by decide⟩
  · intro hov
    obtain ⟨nk, ns⟩ := nw
    obtain ⟨ok', os⟩ := ov
    have hov' : ok' = WindowKind.beacon := hov
    subst hov'
    refine ⟨rfl, ?_, delayWin_sep _ rem hremp, ?_⟩
    · have h := delayStart_ge_start dur c 1
        ⟨WindowKind.beacon, (⟨nk, ns⟩ : Window).wEnd dur + c⟩ rem
      simpa [delayWin] using h
    · conv_lhs => unfold pushW pushLoop
      rw [hpf]
      cases nk <;> dsimp only [] <;> split <;>
        first
          | rfl
          | (rw [hql]
             unfold pushW
             rw [length_insertW]
             refine pushLoop_fuel_eq _ _ _ _ ?_ ?_ <;>
               (rw [countP_insertW_false (overlapsB_delayed_false _ _ _)]; omega))
  · intro hnw hov
    obtain ⟨nk, ns⟩ := nw
    obtain ⟨ok', os⟩ := ov
    have hnw' : nk = WindowKind.beacon := hnw
    subst hnw'
    have hins : insertW ⟨ok', os⟩ rem = q := insertW_popFirst hdur hq hpf
    refine ⟨rfl, ?_, delayWin_sep _ q hq, ?_⟩
    · have h := delayStart_ge_start dur c 1 ⟨WindowKind.beacon, ns⟩ q
      simpa [delayWin] using h
    · conv_lhs => unfold pushW pushLoop
      rw [hpf]
      cases ok' <;> dsimp only []
      case beacon => exact absurd rfl hov
      case child => rw [hins]
      case parent => rw [hins]
  · intro hnw hov
    obtain ⟨nk, ns⟩ := nw
    obtain ⟨ok', os⟩ := ov
    have h1 : nk = WindowKind.child := hnw
    have h2 : ok' = WindowKind.parent := hov
    subst h1; subst h2
    have hins : insertW ⟨WindowKind.parent, os⟩ rem = q := insertW_popFirst hdur hq hpf
    conv_lhs => unfold pushW pushLoop
    rw [hpf]
    dsimp only []
    rw [hins]
  · intro hnw hov
    obtain ⟨nk, ns⟩ := nw
    obtain ⟨ok', os⟩ := ov
    have h1 : nk = WindowKind.parent := hnw
    have h2 : ok' = WindowKind.child := hov
    subst h1; subst h2
    conv_lhs => unfold pushW pushLoop
    rw [hpf]
    dsimp only []
    rw [hql]
    unfold pushW
    rfl

/-- Witness for C2 at the S6 input: queue `[Beacon@1000]`, new window
Child@1000, test durations, clearance 50; the resolution loop finds the
queued Beacon overlapping, arm (1) applies — the Beacon is re-inserted
delayed and the push continues — and the completed push yields
`[Child@1000, Beacon@1150]`. -/
theorem push_overlap_resolution_policy_witness :
    pushW WindowKind.durationTest 50 MAX_WINDOWS [⟨.beacon, 1000⟩] ⟨.child, 1000⟩ =
      pushW WindowKind.durationTest 50 MAX_WINDOWS
        (insertW
          (delayWin WindowKind.durationTest 50 1
            { (⟨WindowKind.beacon, 1000⟩ : Window) with
                start := (⟨WindowKind.child, 1000⟩ : Window).wEnd WindowKind.durationTest + 50 }
            [])
          []) ⟨.child, 1000⟩ ∧
    pushW WindowKind.durationTest 50 MAX_WINDOWS [⟨.beacon, 1000⟩] ⟨.child, 1000⟩ =
      .ok [⟨.child, 1000⟩, ⟨.beacon, 1150⟩] := by
  have h := @push_overlap_resolution_policy WindowKind.durationTest 50 MAX_WINDOWS
    (fun k => by cases k <;> decide) [⟨.beacon, 1000⟩] [] ⟨.child, 1000⟩ ⟨.beacon, 1000⟩
    (by simp) (by decide)
  refine ⟨?_, by decide⟩
  have h1 := (h.1 rfl).2.2.2
  rw [if_pos (show ([] : List Window).length < MAX_WINDOWS by decide)] at h1
  exact h1

/-- The `child_window.get_offset_min(time) as u8` cast in the
`DelayConnectAck` and `ListenForData` arms (state_machine.rs lines 328, 390):
the minute offset is computed as an unsigned machine integer and truncated to
eight bits. -/
def nextChildWindowMin (w : Window) (t : Nat) : Option Nat :=
  (getOffsetMin w t).map (· % 256)

/-- The start assigned to the child window by the `SendConnectAck` /
`SendDataAck` arms before enqueueing it (state_machine.rs lines 346, 414):
`time + next_child_window_min as TimeMs * MS_PER_MIN`. -/
def fixedChildWindowStart (t m8 : Nat) : Nat := t + m8 * MS_PER_MIN

/-- C9: when a parent computes `next_window_min` for a `ConnectAck` or
`DataAck`, the transmitted byte is the minute offset reduced modulo 256, the
child window subsequently enqueued starts at the send time plus that reduced
offset in minutes, and the advertised offset equals the real offset exactly
when the delayed child window lies less than 256 minutes ahead. -/
theorem next_window_min_truncation (w : Window) (t t' m : Nat)
    (hoff : getOffsetMin w t = some m) :
    nextChildWindowMin w t = some (m % 256) ∧
    (∀ m8, nextChildWindowMin w t = some m8 →
      fixedChildWindowStart t' m8 = t' + (m % 256) * MS_PER_MIN) ∧
    (m % 256 = m ↔ m < 256) := by
  refine ⟨by simp [nextChildWindowMin, hoff], ?_, by omega⟩
  intro m8 h8
  simp only [nextChildWindowMin, hoff, Option.map_some', Option.some.injEq] at h8
  rw [← h8]
  rfl

/-- Witness for C9 at a child window 300 minutes ahead: the advertised offset
is 44 minutes. -/
theorem next_window_min_truncation_witness :
    nextChildWindowMin ⟨.child, 18000000⟩ 0 = some (300 % 256) ∧
    (∀ m8, nextChildWindowMin ⟨.child, 18000000⟩ 0 = some m8 →
      fixedChildWindowStart 500 m8 = 500 + (300 % 256) * MS_PER_MIN) ∧
    (300 % 256 = 300 ↔ 300 < 256) :=
  next_window_min_truncation ⟨.child, 18000000⟩ 0 500 300 (by decide)

/-! ## Channels (channel.rs) -/

/-- `Channels` (channel.rs).  `Channel` is a `u8`; the assigned values always
lie in `[0, NUM_CHANNELS)`. -/
structure Channels where
  public : Nat
  parent : Option Nat
  children : Option Nat
  parents_parent_channel : Option Nat
deriving DecidableEq, Repr

/-- The `free_channels` iterator of `Channels::set_random_children_channel`
(channel.rs lines 26-28): the channels in `0..NUM_CHANNELS` for which
`![Some(public), parent, parents_parent_channel].contains(&Some(c))`. -/
def freeChannels (chs : Channels) : List Nat :=
  (List.range NUM_CHANNELS).filter fun c =>
    !(decide (some chs.public = some c) || decide (chs.parent = some c) ||
      decide (chs.parents_parent_channel = some c))

/-- `Channels::set_random_children_channel` (channel.rs lines 25-31):
`children = free_channels.nth(rng.next_u32() as usize % num_free_channels)`.
At most three channels are excluded, so the divisor is never zero. -/
def setRandomChildrenChannel (chs : Channels) (r : Nat) : Channels :=
  let free := freeChannels chs
  { chs with children := free.get? ((r % 2 ^ 32) % free.length) }

theorem freeChannels_ne_nil (chs : Channels) : freeChannels chs ≠ [] := by
  intro h
  have hmem : ∀ c, c ∈ List.range NUM_CHANNELS → c ∉ freeChannels chs →
      chs.public = c ∨ chs.parent = some c ∨ chs.parents_parent_channel = some c := by
    intro c hc hnc
    by_contra hcon
    push_neg at hcon
    refine hnc ?_
    simp only [freeChannels, List.mem_filter]
    refine ⟨hc, ?_⟩
    simp only [Bool.not_eq_true', Bool.or_eq_false_iff, decide_eq_false_iff_not]
    exact ⟨⟨by simpa using hcon.1, hcon.2.1⟩, hcon.2.2⟩
  have h0 := hmem 0 (by decide) (by simp [h])
  have h1 := hmem 1 (by decide) (by simp [h])
  have h2 := hmem 2 (by decide) (by simp [h])
  have h3 := hmem 3 (by decide) (by simp [h])
  rcases h0 with h0 | h0 | h0 <;> rcases h1 with h1 | h1 | h1 <;>
    rcases h2 with h2 | h2 | h2 <;> rcases h3 with h3 | h3 | h3 <;> simp_all

theorem setRandomChildrenChannel_mem (chs : Channels) (r : Nat) :
    ∃ ch, (setRandomChildrenChannel chs r).children = some ch ∧
      ch ∈ freeChannels chs := by
  have hne := freeChannels_ne_nil chs
  have hlen : 0 < (freeChannels chs).length := List.length_pos.mpr hne
  have hlt : (r % 2 ^ 32) % (freeChannels chs).length < (freeChannels chs).length :=
    Nat.mod_lt _ hlen
  refine ⟨(freeChannels chs).get ⟨(r % 2 ^ 32) % (freeChannels chs).length, hlt⟩, ?_, ?_⟩
  · simp [setRandomChildrenChannel, List.get?_eq_get hlt]
  · exact List.get_mem _ _ _

/-- C7 (counterexample): with public channel 0, parent channel 2 and
parents-parent channel 4, `set_random_children_channel` never assigns channel
0 (the public channel is excluded from the free set), so the children channel
is not drawn from the six-element set {0,1,3,5,6,7}. -/
theorem children_channel_never_zero_counterexample :
    ¬∃ r : Nat, (setRandomChildrenChannel ⟨0, some 2, none, some 4⟩ r).children = some 0 := by
  rintro ⟨r, hr⟩
  have hfree : freeChannels ⟨0, some 2, none, some 4⟩ = [1, 3, 5, 6, 7] := by decide
  simp only [setRandomChildrenChannel, hfree] at hr
  have h5 : (r % 2 ^ 32) % 5 < 5 := Nat.mod_lt _ (by decide)
  have hcases : (r % 2 ^ 32) % 5 = 0 ∨ (r % 2 ^ 32) % 5 = 1 ∨ (r % 2 ^ 32) % 5 = 2 ∨
      (r % 2 ^ 32) % 5 = 3 ∨ (r % 2 ^ 32) % 5 = 4 := by omega
  simp only [List.length_cons, List.length_nil] at hr
  rcases hcases with h | h | h | h | h <;> rw [h] at hr <;> simp at hr

/-- C7 (amended): `set_random_children_channel` always assigns a channel in
`[0, NUM_CHANNELS)` different from the public channel, the parent channel and
the parents-parent channel; with public 0, parent 2 and parents-parent 4 the
children channel is `[1,3,5,6,7][rand mod 5]`, i.e. it is drawn from the
five-element set {1,3,5,6,7} (the public channel 0 is excluded as well). -/
theorem children_channel_choice (chs : Channels) (r : Nat) :
    (∃ ch, (setRandomChildrenChannel chs r).children = some ch ∧ ch < NUM_CHANNELS ∧
      ch ≠ chs.public ∧ chs.parent ≠ some ch ∧ chs.parents_parent_channel ≠ some ch) ∧
    ∀ ch, (setRandomChildrenChannel ⟨0, some 2, none, some 4⟩ r).children = some ch ↔
      [1, 3, 5, 6, 7].get? ((r % 2 ^ 32) % 5) = some ch := by
  constructor
  · obtain ⟨ch, hset, hmem⟩ := setRandomChildrenChannel_mem chs r
    refine ⟨ch, hset, ?_⟩
    simp only [freeChannels, List.mem_filter, List.mem_range, Bool.not_eq_true',
      Bool.or_eq_false_iff, decide_eq_false_iff_not] at hmem
    obtain ⟨hlt, ⟨hpub, hpar⟩, hpp⟩ := hmem
    exact ⟨hlt, fun he => hpub (by rw [he]), hpar, hpp⟩
  · intro ch
    have hfree : freeChannels ⟨0, some 2, none, some 4⟩ = [1, 3, 5, 6, 7] := by decide
    simp [setRandomChildrenChannel, hfree]

/-- Witness for C7 (amended): a node with children channel unset, public 0,
parent 2 and parents-parent 4. -/
theorem children_channel_choice_witness :
    (∃ ch, (setRandomChildrenChannel ⟨0, some 2, none, some 4⟩ 7).children = some ch ∧
      ch < NUM_CHANNELS ∧ ch ≠ 0 ∧ (some 2 : Option Nat) ≠ some ch ∧
      (some 4 : Option Nat) ≠ some ch) ∧
    ∀ ch, (setRandomChildrenChannel ⟨0, some 2, none, some 4⟩ 7).children = some ch ↔
      [1, 3, 5, 6, 7].get? ((7 % 2 ^ 32) % 5) = some ch :=
  children_channel_choice ⟨0, some 2, none, some 4⟩ 7

/-! ## Messages, context, states (message.rs, context.rs, states.rs) -/

/-- `NodeData` (message.rs): `{source: NodeId (u32), payload: Payload (u16)}`. -/
structure NodeData where
  source : Nat
  payload : Nat
deriving DecidableEq, Repr

/-- `Message` (message.rs). -/
inductive Message where
  | beacon (hops : Nat) (children_channel : Nat) (parent_channel : Option Nat)
  | connect (id : Nat)
  | connectAck (next_window_min : Nat) (id : Nat)
  | data (payload : List NodeData)
  | dataAck (next_window_min : Nat)
  | nack
deriving DecidableEq, Repr

/-- `BeaconInfo` (context.rs). -/
structure BeaconInfo where
  time_seen : Nat
  hops : Nat
deriving DecidableEq, Repr

/-- `Context` (context.rs).  `windows` is the sorted queue of the `Windows`
scheduler; its clearance is `MIN_WINDOW_CLEARANCE` (set by
`Context::default`) and its durations are the production ones. -/
structure Context where
  channels : Channels
  windows : List Window
  hops_to_sink : Option Nat
  child_data : List NodeData
  potential_connect_beacons : List BeaconInfo
deriving DecidableEq, Repr

/-- `Context::default` (context.rs lines 32-42); `Channels::default` has
`public = 0` and the other channels unset. -/
def Context.default : Context :=
  { channels := ⟨0, none, none, none⟩
    windows := []
    hops_to_sink := none
    child_data := []
    potential_connect_beacons := [] }

/-- `State` (states.rs).  `endT` stands for the source's `end` field. -/
inductive State where
  | reset
  | listenForBeacons (endT : Nat) (channel : Nat)
  | waitBeforeFindingParent (endT : Nat)
  | waitForBestBeacon (best_beacon_hops : Nat) (endT : Nat)
  | listenForBestBeacon (best_beacon_hops : Nat) (endT : Nat) (channel : Nat)
  | delayConnect (endT : Nat) (connect_ack_listen_time : Nat)
  | sendConnect (channel : Nat) (id : Nat) (connect_ack_listen_time : Nat)
  | waitForConnectAck (endT : Nat) (id : Nat)
  | listenForConnectAck (endT : Nat) (channel : Nat) (id : Nat)
  | idle (endT : Nat)
  | sendBeacon (channel : Nat) (hops : Nat) (children_channel : Nat)
      (parent_channel : Option Nat)
  | listenForData (endT : Nat) (channel : Nat)
  | sendDataAck (child_window : Window) (channel : Nat) (next_child_window_min : Nat)
  | sendData (channel : Nat) (payload : List NodeData)
  | listenForDataAck (endT : Nat) (channel : Nat)
  | listenForConnect (endT : Nat) (channel : Nat)
  | delayConnectAck (endT : Nat) (id : Nat)
  | sendConnectAck (child_window : Window) (channel : Nat)
      (next_child_window_min : Nat) (id : Nat)
deriving DecidableEq, Repr

/-- `Action` (protocol_api, as instantiated by Lightning). -/
inductive Action where
  | doNothing
  | wait (endT : Nat)
  | receive (endT : Nat) (channel : Nat)
  | transmit (channel : Nat) (message : Message) (delay : Option Nat)
deriving DecidableEq, Repr

/-- `State::get_action` (states.rs lines 100-200). -/
def State.get_action : State → Action
  | .reset => .doNothing
  | .listenForBeacons e ch => .receive e ch
  | .waitBeforeFindingParent e => .wait e
  | .waitForBestBeacon _ e => .wait e
  | .listenForBestBeacon _ e ch => .receive e ch
  | .sendConnect ch id _ => .transmit ch (.connect id) (some SEND_DELAY)
  | .waitForConnectAck e _ => .wait e
  | .listenForConnectAck e ch _ => .receive e ch
  | .idle e => .wait e
  | .sendBeacon ch hops cc pc => .transmit ch (.beacon hops cc pc) (some SEND_DELAY)
  | .listenForConnect e ch => .receive e ch
  | .sendConnectAck _ ch m id => .transmit ch (.connectAck m id) (some SEND_DELAY)
  | .delayConnectAck e _ => .wait e
  | .listenForData e ch => .receive e ch
  | .sendData ch d => .transmit ch (.data d) (some SEND_DELAY)
  | .delayConnect e _ => .wait e
  | .sendDataAck _ ch m => .transmit ch (.dataAck m) (some SEND_DELAY)
  | .listenForDataAck e ch => .receive e ch

/-- `Lightning` (lightning.rs). -/
structure Lightning where
  id : Nat
  state : State
  context : Context
  is_sink : Bool
  payload : Option Nat
deriving DecidableEq, Repr

/-- A borrowed `RngCore`: the stream of values `next_u32` will return
(reduced mod `2^32`); an exhausted stream keeps returning 0. -/
abbrev Rng := List Nat

/-- `rng.next_u32()`. -/
def nextU32 : Rng → Nat × Rng
  | [] => (0, [])
  | x :: xs => (x % 2 ^ 32, xs)

/-- `Windows::push` as invoked by the state machine: production durations,
`MIN_WINDOW_CLEARANCE` clearance, `MAX_WINDOWS` capacity. -/
def pushP (q : List Window) (w : Window) : PushOut :=
  pushW WindowKind.durationProd MIN_WINDOW_CLEARANCE MAX_WINDOWS q w

/-- `Window::delay` as invoked by the state machine (minute increments). -/
def delayMinP (w : Window) (q : List Window) : Window :=
  delayWin WindowKind.durationProd MIN_WINDOW_CLEARANCE MS_PER_MIN w q

/-- The `reduce` selecting the best beacon in the `ListenForBeacons` timeout
arm (state_machine.rs lines 80-91): fold keeping the current best unless a
strictly smaller hop count appears, so ties keep the earliest entry. -/
def chooseBest (b : BeaconInfo) (l : List BeaconInfo) : BeaconInfo :=
  l.foldl (fun best bc => if bc.hops < best.hops then bc else best) b

/-- `Lightning::next` (state_machine.rs lines 20-437).  The source mutates
`self.context` / `self.payload` and draws from `rng`; we return the next
state together with the updated node and rng.  Panics — `unwrap` on a full or
empty queue or an unset channel, the `assert_eq` in the `Idle` arm, `u8`
overflow of the hop count, capacity overflow of `child_data` or of the
beacon shortlist, and the `unreachable!()` state/message combinations — are
embedded as `none`. -/
def next (l : Lightning) (time : Nat) (message : Option Message) (rng : Rng) :
    Option (State × Lightning × Rng) :=
  match l.state, message with
  | .reset, none =>
    let ctx := Context.default
    if l.is_sink then
      let ctx := { ctx with hops_to_sink := some 0 }
      let (r1, rng) := nextU32 rng
      let ctx := { ctx with channels := setRandomChildrenChannel ctx.channels r1 }
      let (r2, rng) := nextU32 rng
      match pushP ctx.windows ⟨.beacon, time + r2 % BEACON_INTERVAL_MS⟩ with
      | .ok q =>
        let ctx := { ctx with windows := q }
        match nextStartW ctx.windows with
        | some e => some (.idle e, { l with context := ctx }, rng)
        | none => none
      | _ => none
    else
      let (r1, rng) := nextU32 rng
      some (.waitBeforeFindingParent (time + r1 % BEACON_INTERVAL_MS),
        { l with context := ctx }, rng)
  | .waitBeforeFindingParent _, none =>
    some (.listenForBeacons (time + BEACON_INTERVAL_MS) l.context.channels.public, l, rng)
  | .listenForBeacons e ch, some (.beacon hops _ _) =>
    if hops = 0 then
      some (.waitForBestBeacon hops (time + adjustSub BEACON_INTERVAL_MS), l, rng)
    else
      if l.context.potential_connect_beacons.length < MAX_BEACONS_TO_COLLECT then
        some (.listenForBeacons e ch,
          { l with context := { l.context with potential_connect_beacons :=
              l.context.potential_connect_beacons ++ [⟨time, hops⟩] } }, rng)
      else none
  | .listenForBeacons _ _, none =>
    match l.context.potential_connect_beacons with
    | [] =>
      let (r1, rng) := nextU32 rng
      some (.waitBeforeFindingParent
        (time + BEACON_INTERVAL_MS / 2 + r1 % BEACON_INTERVAL_MS), l, rng)
    | b :: rest =>
      let best := chooseBest b rest
      some (.waitForBestBeacon best.hops
        (best.time_seen + adjustSub BEACON_INTERVAL_MS), l, rng)
  | .listenForBeacons e ch, some _ =>
    some (.listenForBeacons e ch, l, rng)
  | .waitForBestBeacon bh _, none =>
    some (.listenForBestBeacon bh (time + BEST_BEACON_LISTEN_TIME)
      l.context.channels.public, l, rng)
  | .listenForBestBeacon bh e ch, some (.beacon hops pcc ppc) =>
    if hops ≠ bh then
      some (.listenForBestBeacon bh e ch, l, rng)
    else
      if hops + 1 ≤ 255 then
        let ctx := { l.context with
          hops_to_sink := some (hops + 1)
          channels := { l.context.channels with
            parent := some pcc, parents_parent_channel := ppc } }
        let (r1, rng) := nextU32 rng
        some (.delayConnect (time + r1 % RANDOM_CONNECT_RANGE_MS)
          (time + RANDOM_CONNECT_RANGE_MS + CONNECT_RESPONSE_DELAY_MS),
          { l with context := ctx }, rng)
      else none
  | .listenForBestBeacon _ _ _, none =>
    let ctx := { l.context with potential_connect_beacons := [] }
    let (r1, rng) := nextU32 rng
    some (.waitBeforeFindingParent
      (time + BEACON_INTERVAL_MS / 2 + r1 % BEACON_INTERVAL_MS),
      { l with context := ctx }, rng)
  | .listenForBestBeacon bh e ch, some _ =>
    some (.listenForBestBeacon bh e ch, l, rng)
  | .delayConnect _ calt, none =>
    match l.context.channels.parent with
    | some pch => some (.sendConnect pch l.id calt, l, rng)
    | none => none
  | .sendConnect _ id calt, none =>
    some (.waitForConnectAck calt id, l, rng)
  | .waitForConnectAck _ id, none =>
    match l.context.channels.parent with
    | some pch =>
      some (.listenForConnectAck (time + RESPONSE_LISTEN_DURATION_MS) pch id, l, rng)
    | none => none
  | .listenForConnectAck _ _ id, some (.connectAck nwm ackId) =>
    if id = ackId then
      let (r1, rng) := nextU32 rng
      let ctx := { l.context with
        channels := setRandomChildrenChannel l.context.channels r1 }
      match pushP ctx.windows ⟨.parent, time + adjust (nwm * MS_PER_MIN)⟩ with
      | .ok q1 =>
        let (r2, rng) := nextU32 rng
        match pushP q1 ⟨.beacon, time + BEACON_INTERVAL_MS + r2 % BEACON_INTERVAL_MS⟩ with
        | .ok q2 =>
          let ctx := { ctx with windows := q2 }
          match nextStartW ctx.windows with
          | some e => some (.idle e, { l with context := ctx }, rng)
          | none => none
        | _ => none
      | _ => none
    else some (.reset, l, rng)
  | .listenForConnectAck _ _ _, _ =>
    some (.reset, l, rng)
  | .idle _, none =>
    match popW l.context.windows with
    | none => none
    | some (w, rest) =>
      if w.start = time then
        match w.kind with
        | .beacon =>
          match l.context.hops_to_sink, l.context.channels.children with
          | some h, some cc =>
            some (.sendBeacon l.context.channels.public h cc l.context.channels.parent,
              { l with context := { l.context with windows := rest } }, rng)
          | _, _ => none
        | .child =>
          match l.context.channels.children with
          | some cc =>
            some (.listenForData (time + DATA_RECEIVE_WINDOW) cc,
              { l with context := { l.context with windows := rest } }, rng)
          | none => none
        | .parent =>
          if l.context.child_data.length ≤ MAX_DESCENDANTS + 1 then
            let d := l.context.child_data
            let d := match l.payload with
              | some p => d ++ [⟨l.id, p⟩]
              | none => d
            if d.length ≤ MAX_DESCENDANTS + 1 then
              match l.context.channels.parent with
              | some pch =>
                some (.sendData pch d,
                  { l with
                    payload := none
                    context := { l.context with windows := rest, child_data := [] } },
                  rng)
              | none => none
            else none
          else none
      else none
  | .sendBeacon _ _ _ _, none =>
    match pushP l.context.windows ⟨.beacon, time + BEACON_INTERVAL_MS⟩ with
    | .ok q =>
      match l.context.channels.children with
      | some cc =>
        some (.listenForConnect
          (time + adjust (RANDOM_CONNECT_RANGE_MS + SEND_DELAY)) cc,
          { l with context := { l.context with windows := q } }, rng)
      | none => none
    | _ => none
  | .listenForConnect e _, some (.connect id) =>
    some (.delayConnectAck (e + adjust CONNECT_RESPONSE_DELAY_MS) id, l, rng)
  | .listenForConnect _ _, none =>
    match nextStartW l.context.windows with
    | some e => some (.idle e, l, rng)
    | none => none
  | .listenForConnect e ch, some _ =>
    if e > time then
      some (.listenForConnect e ch, l, rng)
    else
      match nextStartW l.context.windows with
      | some e2 => some (.idle e2, l, rng)
      | none => none
  | .delayConnectAck _ id, none =>
    let cw := delayMinP ⟨.child, time + CHILD_DATA_INTERVAL_MIN * MS_PER_MIN⟩
      l.context.windows
    match getOffsetMin cw time with
    | some m =>
      match l.context.channels.children with
      | some cc => some (.sendConnectAck cw cc (m % 256) id, l, rng)
      | none => none
    | none => none
  | .sendConnectAck cw _ m8 _, none =>
    let cw := { cw with start := time + m8 * MS_PER_MIN }
    match pushP l.context.windows cw with
    | .ok q =>
      let q := if isFullW q then (popKindW .beacon q).2 else q
      match nextStartW q with
      | some e =>
        some (.idle e, { l with context := { l.context with windows := q } }, rng)
      | none => none
    | _ => none
  | .sendData _ _, none =>
    match l.context.channels.parent with
    | some pch =>
      some (.listenForDataAck (time + RESPONSE_LISTEN_DURATION_MS) pch, l, rng)
    | none => none
  | .listenForDataAck _ _, some (.dataAck nwm) =>
    match pushP l.context.windows ⟨.parent, time + adjust (nwm * MS_PER_MIN)⟩ with
    | .ok q =>
      match nextStartW q with
      | some e =>
        some (.idle e, { l with context := { l.context with windows := q } }, rng)
      | none => none
    | _ => none
  | .listenForDataAck _ _, _ =>
    some (.reset, l, rng)
  | .listenForData _ _, some (.data cd) =>
    if l.context.child_data.length + cd.length ≤ MAX_DESCENDANTS then
      let ctx := { l.context with child_data := l.context.child_data ++ cd }
      let cw := delayMinP ⟨.child, time + CHILD_DATA_INTERVAL_MIN * MS_PER_MIN⟩
        ctx.windows
      match getOffsetMin cw time with
      | some m =>
        match ctx.channels.children with
        | some cc =>
          some (.sendDataAck cw cc (m % 256), { l with context := ctx }, rng)
        | none => none
      | none => none
    else none
  | .listenForData _ _, _ =>
    match nextStartW l.context.windows with
    | some e => some (.idle e, l, rng)
    | none => none
  | .sendDataAck cw _ m8, none =>
    let cw := { cw with start := time + m8 * MS_PER_MIN }
    match pushP l.context.windows cw with
    | .ok q =>
      match nextStartW q with
      | some e =>
        some (.idle e, { l with context := { l.context with windows := q } }, rng)
      | none => none
    | _ => none
  | .sendDataAck _ _ _, some _ => none
  | .sendConnectAck _ _ _ _, some _ => none
  | .idle _, some _ => none
  | .sendBeacon _ _ _ _, some _ => none
  | .sendConnect _ _ _, some _ => none
  | .sendData _ _, some _ => none
  | .waitBeforeFindingParent _, some _ => none
  | .waitForBestBeacon _ _, some _ => none
  | .delayConnect _ _, some _ => none
  | .reset, some _ => none
  | .delayConnectAck _ _, some _ => none
  | .waitForConnectAck _ _, some _ => none

/-- `Protocol::progress` for `Lightning` (lightning.rs lines 47-85): run
`next`, store the new state, drain `child_data` (plus the own payload, if
set) into an uplink batch when the node is a sink and `child_data` is
non-empty, and return the new state's action. -/
def progress (l : Lightning) (time : Nat) (message : Option Message) (rng : Rng) :
    Option (Action × Option (List NodeData) × Lightning × Rng) :=
  match next l time message rng with
  | none => none
  | some (st, l1, rng1) =>
    let l2 := { l1 with state := st }
    if l2.is_sink ∧ l2.context.child_data ≠ [] then
      if l2.context.child_data.length ≤ MAX_DESCENDANTS + 1 then
        let dl3 : List NodeData × Lightning :=
          match l2.payload with
          | some d => (l2.context.child_data ++ [⟨l2.id, d⟩], { l2 with payload := none })
          | none => (l2.context.child_data, l2)
        if dl3.1.length ≤ MAX_DESCENDANTS + 1 then
          some (l2.state.get_action, some dl3.1,
            { dl3.2 with context := { dl3.2.context with child_data := [] } }, rng1)
        else none
      else none
    else some (l2.state.get_action, none, l2, rng1)

/-! ## Simulator wrapper (sim.rs) -/

/-- `Coordinates` (sim.rs lines 145-149). -/
structure Coordinates where
  x : Int
  y : Int
deriving DecidableEq, Repr

/-- `ProtocolWrapper` (sim.rs lines 24-29). -/
structure ProtocolWrapper where
  protocol : Lightning
  location : Coordinates
  receiving_channel : Option Nat
deriving DecidableEq, Repr

/-- `ProtocolWrapper::progress` (sim.rs lines 55-81): run the protocol, set
`receiving_channel` from the returned action, panic (`none`) when a non-sink
returns uplink data, and set a dummy payload (`Payload::default() = 0`) when
none is set. -/
def wrapperProgress (w : ProtocolWrapper) (time : Nat) (message : Option Message)
    (rng : Rng) : Option (Action × Option (List NodeData) × ProtocolWrapper × Rng) :=
  match progress w.protocol time message rng with
  | none => none
  | some (a, uplink, l, rng1) =>
    let rc : Option Nat :=
      match a with
      | .receive _ ch => some ch
      | _ => none
    if l.is_sink = false ∧ uplink.isSome then none
    else
      let l2 := if l.payload.isSome then l else { l with payload := some 0 }
      some (a, uplink, { w with protocol := l2, receiving_channel := rc }, rng1)

/-! ## State machine theorems -/

theorem next_preserves_node (l : Lightning) (time : Nat) (message : Option Message)
    (rng : Rng) (st : State) (l1 : Lightning) (rng1 : Rng)
    (h : next l time message rng = some (st, l1, rng1)) :
    l1.id = l.id ∧ l1.is_sink = l.is_sink ∧ l1.state = l.state := by
  unfold next at h
  repeat' first
    | split at h
    | dsimp only [] at h
  all_goals first
    | (cases h; exact ⟨rfl, rfl, rfl⟩)
    | cases h

/-- C10: after every successful `ProtocolWrapper::progress`, the wrapper's
`receiving_channel` is `some c` exactly when the returned action is `Receive`
on channel `c`; after `Wait`, `Transmit` and `None` actions it is `none`, so
a node counts as a potential recipient only while its last action was a
`Receive` on the matching channel. -/
theorem wrapper_receiving_channel_iff (w : ProtocolWrapper) (time : Nat)
    (message : Option Message) (rng : Rng) (a : Action)
    (up : Option (List NodeData)) (w' : ProtocolWrapper) (rng' : Rng)
    (h : wrapperProgress w time message rng = some (a, up, w', rng')) :
    ∀ c, w'.receiving_channel = some c ↔ ∃ e, a = .receive e c := by
  intro c
  unfold wrapperProgress at h
  cases hp : progress w.protocol time message rng with
  | none => rw [hp] at h; cases h
  | some r =>
    obtain ⟨a1, up1, l1, rng1⟩ := r
    rw [hp] at h
    dsimp only [] at h
    split at h
    · cases h
    · simp only [Option.some.injEq, Prod.mk.injEq] at h
      obtain ⟨ha, -, hw, -⟩ := h
      subst ha
      rw [← hw]
      cases a1 <;> simp

/-- Witness for C10: a node whose step returns a `Receive` action on channel
3 (the node stays in `ListenForConnect` because the window has not ended). -/
theorem wrapper_receiving_channel_iff_witness :
    (some 3 : Option Nat) = some 3 ↔ ∃ e, Action.receive 500 3 = .receive e 3 := by
  have h := wrapper_receiving_channel_iff
    ⟨⟨7, .listenForConnect 500 3,
      { Context.default with channels := ⟨0, none, some 3, none⟩ }, false, some 2⟩,
      ⟨0, 0⟩, none⟩
    400 (some .nack) [] (.receive 500 3) none
    ⟨⟨7, .listenForConnect 500 3,
      { Context.default with channels := ⟨0, none, some 3, none⟩ }, false, some 2⟩,
      ⟨0, 0⟩, some 3⟩ [] (by decide)
  simpa using h 3

/-- C5: on every successful `progress`, the uplink batch is `some` exactly
when the node is a sink and the post-transition `child_data` is non-empty; in
that case the batch is `child_data` followed by the node's own `NodeData`
when a payload is set, the returned node's `child_data` is cleared, and the
batch is non-empty; a node whose `is_sink` is false never returns a batch
(`next` never changes `is_sink`, by `next_preserves_node`). -/
theorem progress_uplink_batching (l : Lightning) (time : Nat)
    (message : Option Message) (rng : Rng) (a : Action) (up : Option (List NodeData))
    (l' : Lightning) (rng' : Rng) (st : State) (l1 : Lightning) (rng1 : Rng)
    (hn : next l time message rng = some (st, l1, rng1))
    (h : progress l time message rng = some (a, up, l', rng')) :
    (up.isSome ↔ l.is_sink = true ∧ l1.context.child_data ≠ []) ∧
    (l.is_sink = false → up = none) ∧
    ∀ batch, up = some batch →
      batch = l1.context.child_data ++
        (match l1.payload with
         | some d => [⟨l1.id, d⟩]
         | none => []) ∧
      l'.context.child_data = [] ∧ batch ≠ [] := by
  have hsink : l1.is_sink = l.is_sink := (next_preserves_node l time message rng st l1 rng1 hn).2.1
  unfold progress at h
  rw [hn] at h
  dsimp only [] at h
  split at h
  · rename_i hcond
    obtain ⟨hs, hne⟩ := hcond
    split at h
    · rename_i hlen
      cases hpay : l1.payload with
      | some d =>
        rw [hpay] at h
        dsimp only [] at h
        split at h
        · simp only [Option.some.injEq, Prod.mk.injEq] at h
          obtain ⟨-, hup, hl', -⟩ := h
          refine ⟨?_, ?_, ?_⟩
          · simp only [← hup]
            exact ⟨fun _ => ⟨by rw [← hsink]; exact hs, hne⟩, fun _ => rfl⟩
          · intro hfalse
            rw [← hsink] at hfalse
            rw [hfalse] at hs
            cases hs
          · intro batch hb
            rw [← hup] at hb
            simp only [Option.some.injEq] at hb
            subst hb
            refine ⟨rfl, by rw [← hl'], by simp⟩
        · cases h
      | none =>
        rw [hpay] at h
        dsimp only [] at h
        split at h
        · simp only [Option.some.injEq, Prod.mk.injEq] at h
          obtain ⟨-, hup, hl', -⟩ := h
          refine ⟨?_, ?_, ?_⟩
          · simp only [← hup]
            exact ⟨fun _ => ⟨by rw [← hsink]; exact hs, hne⟩, fun _ => rfl⟩
          · intro hfalse
            rw [← hsink] at hfalse
            rw [hfalse] at hs
            cases hs
          · intro batch hb
            rw [← hup] at hb
            simp only [Option.some.injEq] at hb
            subst hb
            exact ⟨by simp, by rw [← hl'], by simpa using hne⟩
        · exact absurd hlen (by assumption)
    · cases h
  · rename_i hcond
    simp only [Option.some.injEq, Prod.mk.injEq] at h
    obtain ⟨-, hup, -, -⟩ := h
    refine ⟨?_, fun _ => hup.symm, ?_⟩
    · rw [← hup]
      simp only [Option.isSome_none, Bool.false_eq_true, false_iff]
      intro hcon
      exact hcond ⟨hsink.trans hcon.1, hcon.2⟩
    · intro batch hb
      rw [← hup] at hb
      cases hb

/-- Witness for C5: a sink in `ListenForConnect` with collected child data
and an own payload drains the batch on timeout. -/
theorem progress_uplink_batching_witness :
    ((some [⟨5, 9⟩, ⟨7, 3⟩] : Option (List NodeData)).isSome ↔
      true = true ∧ ([⟨5, 9⟩] : List NodeData) ≠ []) ∧
    ((true : Bool) = false → (some [⟨5, 9⟩, ⟨7, 3⟩] : Option (List NodeData)) = none) ∧
    (∀ batch, (some [⟨5, 9⟩, ⟨7, 3⟩] : Option (List NodeData)) = some batch →
      batch = ([⟨5, 9⟩] : List NodeData) ++
        (match (some 3 : Option Nat) with
         | some d => [⟨7, d⟩]
         | none => []) ∧
      ([] : List NodeData) = [] ∧ batch ≠ []) := by
  have h := progress_uplink_batching
    ⟨7, .listenForConnect 500 3,
      { Context.default with windows := [⟨.beacon, 900⟩], child_data := [⟨5, 9⟩] },
      true, some 3⟩
    400 none [] (.wait 900) (some [⟨5, 9⟩, ⟨7, 3⟩])
    ⟨7, .idle 900,
      { Context.default with windows := [⟨.beacon, 900⟩] }, true, none⟩ []
    (.idle 900)
    ⟨7, .listenForConnect 500 3,
      { Context.default with windows := [⟨.beacon, 900⟩], child_data := [⟨5, 9⟩] },
      true, some 3⟩ []
    (by decide) (by decide)
  simpa using h

theorem chooseBest_spec (b : BeaconInfo) (l : List BeaconInfo) :
    ∃ l₁ l₂, b :: l = l₁ ++ chooseBest b l :: l₂ ∧
      (∀ x ∈ l₁, (chooseBest b l).hops < x.hops) ∧
      ∀ x ∈ b :: l, (chooseBest b l).hops ≤ x.hops := by
  induction l generalizing b with
  | nil => exact ⟨[], [], rfl, by simp, by simp [chooseBest]⟩
  | cons a l ih =>
    have hstep : chooseBest b (a :: l) = chooseBest (if a.hops < b.hops then a else b) l :=
      rfl
    by_cases hab : a.hops < b.hops
    · obtain ⟨l₁, l₂, hsplit, hlt, hle⟩ := ih a
      rw [hstep, if_pos hab]
      refine ⟨b :: l₁, l₂, by rw [List.cons_append, ← hsplit], ?_, ?_⟩
      · intro x hx
        rcases List.mem_cons.mp hx with rfl | hx
        · have := hle a (List.mem_cons_self _ _)
          omega
        · exact hlt x hx
      · intro x hx
        rcases List.mem_cons.mp hx with rfl | hx
        · have := hle a (List.mem_cons_self _ _)
          omega
        · exact hle x hx
    · obtain ⟨l₁, l₂, hsplit, hlt, hle⟩ := ih b
      rw [hstep, if_neg hab]
      cases l₁ with
      | nil =>
        simp only [List.nil_append, List.cons.injEq] at hsplit
        obtain ⟨hb, hl₂⟩ := hsplit
        refine ⟨[], a :: l, ?_, by simp, ?_⟩
        · rw [List.nil_append, ← hb]
        · intro x hx
          rcases List.mem_cons.mp hx with rfl | hx
          · rw [← hb]
          · rcases List.mem_cons.mp hx with rfl | hx
            · rw [← hb]
              omega
            · exact hle x (List.mem_cons.mpr (Or.inr hx))
      | cons y l₁' =>
        simp only [List.cons_append, List.cons.injEq] at hsplit
        obtain ⟨hyb, hrest⟩ := hsplit
        subst hyb
        have hblt : (chooseBest b l).hops < b.hops := hlt b (List.mem_cons_self _ _)
        refine ⟨b :: a :: l₁', l₂, ?_, ?_, ?_⟩
        · rw [List.cons_append, List.cons_append, ← hrest]
        · intro x hx
          rcases List.mem_cons.mp hx with rfl | hx
          · exact hblt
          · rcases List.mem_cons.mp hx with rfl | hx
            · omega
            · exact hlt x (List.mem_cons.mpr (Or.inr hx))
        · intro x hx
          rcases List.mem_cons.mp hx with rfl | hx
          · omega
          · rcases List.mem_cons.mp hx with rfl | hx
            · omega
            · exact hle x (List.mem_cons.mpr (Or.inr hx))

/-- C6: in `ListenForBeacons`, a beacon with `hops == 0` short-circuits at
once to `WaitForBestBeacon`; at window end with a non-empty shortlist the
node picks the entry with minimum hop count, ties resolved in favour of the
earliest-inserted entry, and waits until `time_seen + adjust_sub
(BEACON_INTERVAL_MS)`; with an empty shortlist it returns to
`WaitBeforeFindingParent` with fresh random jitter. -/
theorem listen_for_beacons_selection (l : Lightning) (time : Nat) (rng : Rng)
    (e ch : Nat) (hstate : l.state = .listenForBeacons e ch) :
    (∀ cc pc, next l time (some (.beacon 0 cc pc)) rng =
      some (.waitForBestBeacon 0 (time + adjustSub BEACON_INTERVAL_MS), l, rng)) ∧
    (l.context.potential_connect_beacons = [] →
      next l time none rng =
        some (.waitBeforeFindingParent
          (time + BEACON_INTERVAL_MS / 2 + (nextU32 rng).1 % BEACON_INTERVAL_MS),
          l, (nextU32 rng).2)) ∧
    ∀ b rest, l.context.potential_connect_beacons = b :: rest →
      next l time none rng =
        some (.waitForBestBeacon (chooseBest b rest).hops
          ((chooseBest b rest).time_seen + adjustSub BEACON_INTERVAL_MS), l, rng) ∧
      ∃ l₁ l₂, b :: rest = l₁ ++ chooseBest b rest :: l₂ ∧
        (∀ x ∈ l₁, (chooseBest b rest).hops < x.hops) ∧
        ∀ x ∈ b :: rest, (chooseBest b rest).hops ≤ x.hops := by
  obtain ⟨id, st, ctx, sink, pay⟩ := l
  simp only [Lightning.state] at hstate
  subst hstate
  refine ⟨?_, ?_, ?_⟩
  · intro cc pc
    rfl
  · intro hempty
    simp only [Lightning.context] at hempty
    unfold next
    dsimp only []
    rw [hempty]
  · intro b rest hcons
    simp only [Lightning.context] at hcons
    refine ⟨?_, chooseBest_spec b rest⟩
    unfold next
    dsimp only []
    rw [hcons]

/-- Witness for C6 at a node holding the shortlist
`[{100,3}, {200,2}, {300,2}]`: the first of the two hop-2 entries wins. -/
theorem listen_for_beacons_selection_witness :
    (∀ cc pc,
      next ⟨7, .listenForBeacons 2000 0,
          { Context.default with
            potential_connect_beacons := [⟨100, 3⟩, ⟨200, 2⟩, ⟨300, 2⟩] },
          false, none⟩
        1500 (some (.beacon 0 cc pc)) [11] =
      some (.waitForBestBeacon 0 (1500 + adjustSub BEACON_INTERVAL_MS),
        ⟨7, .listenForBeacons 2000 0,
          { Context.default with
            potential_connect_beacons := [⟨100, 3⟩, ⟨200, 2⟩, ⟨300, 2⟩] },
          false, none⟩, [11])) ∧
    (([⟨100, 3⟩, ⟨200, 2⟩, ⟨300, 2⟩] : List BeaconInfo) = [] →
      next ⟨7, .listenForBeacons 2000 0,
          { Context.default with
            potential_connect_beacons := [⟨100, 3⟩, ⟨200, 2⟩, ⟨300, 2⟩] },
          false, none⟩ 1500 none [11] =
        some (.waitBeforeFindingParent
          (1500 + BEACON_INTERVAL_MS / 2 + (nextU32 [11]).1 % BEACON_INTERVAL_MS),
          ⟨7, .listenForBeacons 2000 0,
            { Context.default with
              potential_connect_beacons := [⟨100, 3⟩, ⟨200, 2⟩, ⟨300, 2⟩] },
            false, none⟩, (nextU32 [11]).2)) := by
  have h := listen_for_beacons_selection
    ⟨7, .listenForBeacons 2000 0,
      { Context.default with
        potential_connect_beacons := [⟨100, 3⟩, ⟨200, 2⟩, ⟨300, 2⟩] },
      false, none⟩ 1500 [11] 2000 0 rfl
  exact ⟨h.1, h.2.1⟩

theorem nextStartW_of_ne_nil {q : List Window} (h : q ≠ []) :
    ∃ x, nextStartW q = some x := by
  cases q with
  | nil => exact absurd rfl h
  | cons w ws => exact ⟨w.start, rfl⟩

theorem insertW_ne_nil (w : Window) (q : List Window) : insertW w q ≠ [] := by
  intro h
  have := length_insertW w q
  rw [h] at this
  simp at this

/-- Pushing a Beacon window onto a queue holding a single Parent window
always succeeds: either there is no overlap, or the new beacon is delayed
(forward only) by the `(Beacon, _)` arm. -/
theorem pushP_beacon_single (ws bs : Nat) :
    ∃ b : Window, pushP [⟨.parent, ws⟩] ⟨.beacon, bs⟩ = .ok (insertW b [⟨.parent, ws⟩]) ∧
      b.kind = .beacon ∧ bs ≤ b.start := by
  cases hov : overlapsB WindowKind.durationProd MIN_WINDOW_CLEARANCE
      ⟨.beacon, bs⟩ ⟨.parent, ws⟩ with
  | false =>
    refine ⟨⟨.beacon, bs⟩, ?_, rfl, Nat.le_refl _⟩
    have hpop : popFirst (overlapsB WindowKind.durationProd MIN_WINDOW_CLEARANCE
        ⟨.beacon, bs⟩) [⟨.parent, ws⟩] = none := by
      simp [popFirst, hov]
    unfold pushP pushW pushLoop
    rw [hpop]
    rfl
  | true =>
    refine ⟨delayWin WindowKind.durationProd MIN_WINDOW_CLEARANCE 1 ⟨.beacon, bs⟩
      (insertW ⟨.parent, ws⟩ []), ?_, rfl, ?_⟩
    · have hpop : popFirst (overlapsB WindowKind.durationProd MIN_WINDOW_CLEARANCE
          ⟨.beacon, bs⟩) [⟨.parent, ws⟩] = some (⟨.parent, ws⟩, []) := by
        simp [popFirst, hov]
      unfold pushP pushW pushLoop
      rw [hpop]
      rfl
    · have := delayStart_ge_start WindowKind.durationProd MIN_WINDOW_CLEARANCE 1
        (⟨.beacon, bs⟩ : Window) (insertW ⟨.parent, ws⟩ [])
      simpa [delayWin] using this

/-- C4: in `ListenForConnectAck` with the pending id equal to the node's own
id and (as in every reachable joining state) an empty window queue, a
`ConnectAck` carrying that id assigns a random children channel, pushes a
Parent window at `now + adjust_up(next_window_min minutes)`, pushes a Beacon
window at `now + BEACON_INTERVAL_MS + rand() mod BEACON_INTERVAL_MS` (which
overlap resolution can only move later), and transitions to `Idle` ending at
the earliest scheduled window; any other message — including a `ConnectAck`
with a different id — or a timeout with no message yields `Reset`, which is
non-fatal (the node rebuilds its context and rejoins via discovery). -/
theorem connect_ack_seals_join (l : Lightning) (time : Nat) (rng : Rng)
    (e ch : Nat) (hstate : l.state = .listenForConnectAck e ch l.id)
    (hw : l.context.windows = []) :
    (∀ nwm, ∃ cc q2 e2,
      next l time (some (.connectAck nwm l.id)) rng =
        some (.idle e2,
          { l with context := { l.context with
              channels := { l.context.channels with children := some cc }
              windows := q2 } },
          (nextU32 (nextU32 rng).2).2) ∧
      cc ∈ freeChannels l.context.channels ∧
      (⟨.parent, time + adjust (nwm * MS_PER_MIN)⟩ : Window) ∈ q2 ∧
      (∃ b ∈ q2, b.kind = .beacon ∧
        time + BEACON_INTERVAL_MS + (nextU32 (nextU32 rng).2).1 % BEACON_INTERVAL_MS
          ≤ b.start) ∧
      nextStartW q2 = some e2) ∧
    (next l time none rng = some (.reset, l, rng)) ∧
    (∀ m, (∀ nwm, m ≠ .connectAck nwm l.id) →
      next l time (some m) rng = some (.reset, l, rng)) := by
  obtain ⟨id, st, ctx, sink, pay⟩ := l
  simp only [Lightning.state, Lightning.id] at hstate
  simp only [Lightning.context] at hw
  subst hstate
  refine ⟨?_, by rfl, ?_⟩
  · intro nwm
    unfold next
    dsimp only [Lightning.id, Lightning.context]
    rw [if_pos rfl]
    rcases hrng1 : nextU32 rng with ⟨r1, rng1⟩
    dsimp only []
    rw [hw]
    obtain ⟨cc, hcc, hccmem⟩ := setRandomChildrenChannel_mem ctx.channels r1
    have hcc2 := hcc
    unfold setRandomChildrenChannel at hcc2
    dsimp only [] at hcc2
    have hSR : setRandomChildrenChannel ctx.channels r1 =
        { ctx.channels with children := some cc } := by
      unfold setRandomChildrenChannel
      dsimp only []
      rw [hcc2]
    rw [show pushP [] (⟨.parent, time + adjust (nwm * MS_PER_MIN)⟩ : Window) =
      .ok [⟨.parent, time + adjust (nwm * MS_PER_MIN)⟩] from rfl]
    dsimp only []
    rcases hrng2 : nextU32 rng1 with ⟨r2, rng2⟩
    dsimp only []
    obtain ⟨b, hp2, hbk, hbs⟩ := pushP_beacon_single (time + adjust (nwm * MS_PER_MIN))
      (time + BEACON_INTERVAL_MS + r2 % BEACON_INTERVAL_MS)
    rw [hp2]
    dsimp only []
    obtain ⟨e2, he2⟩ := nextStartW_of_ne_nil
      (insertW_ne_nil b [⟨.parent, time + adjust (nwm * MS_PER_MIN)⟩])
    rw [he2]
    refine ⟨cc, insertW b [⟨.parent, time + adjust (nwm * MS_PER_MIN)⟩], e2,
      ?_, hccmem, ?_, ⟨b, ?_, hbk, hbs⟩, he2⟩
    · rw [hSR]
    · exact mem_insertW.mpr (Or.inr (List.mem_cons_self _ _))
    · exact mem_insertW.mpr (Or.inl rfl)
  · intro m hm
    cases m with
    | connectAck nwm2 aid =>
      unfold next
      dsimp only [Lightning.id] at hm ⊢
      rw [if_neg fun hcon => hm nwm2 (by rw [hcon])]
    | beacon hops cc pc => rfl
    | connect cid => rfl
    | data d => rfl
    | dataAck nwm2 => rfl
    | nack => rfl

/-- Witness for C4 at a concrete joining node (id 7, parent channel 2,
`next_window_min = 5`, rng draws 9 and 12). -/
theorem connect_ack_seals_join_witness :
    (∀ nwm, ∃ cc q2 e2,
      next ⟨7, .listenForConnectAck 900 2 7,
          { Context.default with
            channels := ⟨0, some 2, none, some 4⟩, hops_to_sink := some 3 },
          false, none⟩ 1000 (some (.connectAck nwm 7)) [9, 12] =
        some (.idle e2,
          { (⟨7, .listenForConnectAck 900 2 7,
              { Context.default with
                channels := ⟨0, some 2, none, some 4⟩, hops_to_sink := some 3 },
              false, none⟩ : Lightning) with
            context := { ({ Context.default with
                channels := ⟨0, some 2, none, some 4⟩,
                hops_to_sink := some 3 } : Context) with
              channels := { (⟨0, some 2, none, some 4⟩ : Channels) with
                children := some cc }
              windows := q2 } },
          (nextU32 (nextU32 [9, 12]).2).2) ∧
      cc ∈ freeChannels ⟨0, some 2, none, some 4⟩ ∧
      (⟨.parent, 1000 + adjust (nwm * MS_PER_MIN)⟩ : Window) ∈ q2 ∧
      (∃ b ∈ q2, b.kind = .beacon ∧
        1000 + BEACON_INTERVAL_MS + (nextU32 (nextU32 [9, 12]).2).1 % BEACON_INTERVAL_MS
          ≤ b.start) ∧
      nextStartW q2 = some e2) ∧
    (next ⟨7, .listenForConnectAck 900 2 7,
        { Context.default with
          channels := ⟨0, some 2, none, some 4⟩, hops_to_sink := some 3 },
        false, none⟩ 1000 none [9, 12] =
      some (.reset,
        ⟨7, .listenForConnectAck 900 2 7,
          { Context.default with
            channels := ⟨0, some 2, none, some 4⟩, hops_to_sink := some 3 },
          false, none⟩, [9, 12])) := by
  have h := connect_ack_seals_join
    ⟨7, .listenForConnectAck 900 2 7,
      { Context.default with
        channels := ⟨0, some 2, none, some 4⟩, hops_to_sink := some 3 },
      false, none⟩ 1000 [9, 12] 900 2 rfl rfl
  exact ⟨h.1, h.2.1⟩

/-! ## Simulator event queue and message forwarding (sim.rs, main.rs) -/

/-- `TIME_ON_AIR` (main.rs line 42). -/
def TIME_ON_AIR : Nat := 80

/-- `2^64`, the modulus of the simulator's `u64` time arithmetic. -/
def U64 : Nat := 2 ^ 64

/-- Wrapping `u64` subtraction of a small constant (release-mode semantics of
`event.time - TIME_ON_AIR`). -/
def wsub (a b : Nat) : Nat := (a + U64 - b) % U64

/-- `MessageKind` (sim.rs lines 84-88). -/
inductive MessageKind where
  | transmit
  | receive
deriving DecidableEq, Repr

/-- `MessageWrapper` (sim.rs lines 90-97). -/
structure MessageWrapper where
  kind : MessageKind
  channel : Nat
  message : Message
  is_corrupt : Bool
deriving DecidableEq, Repr

/-- `Event` (sim.rs lines 110-115). -/
structure Event where
  time : Nat
  node_id : Nat
  message : Option MessageWrapper
deriving DecidableEq, Repr

/-- Insertion into the time-sorted event queue (`SortedLinkedList::push` with
`Event`'s `Ord` by `time`). -/
def insertE (e : Event) : List Event → List Event
  | [] => [e]
  | x :: xs => if e.time ≤ x.time then e :: x :: xs else x :: insertE e xs

/-- `nodes[i]`: the simulator indexes the node vector by node id (vector
index is node id, main.rs line 109); all ids are in range in every run, so
out-of-range access (a Rust panic) is mapped to a default node. -/
def nodeAt (nodes : List ProtocolWrapper) (i : Nat) : ProtocolWrapper :=
  (nodes.get? i).getD ⟨⟨0, .reset, Context.default, false, none⟩, ⟨0, 0⟩, none⟩

/-- `get_recipients` (sim.rs lines 176-191): ids of the other nodes
listening on the channel and visible to the sender. -/
def getRecipients (sender : ProtocolWrapper) (channel : Nat)
    (nodes : List ProtocolWrapper)
    (vis : ProtocolWrapper → ProtocolWrapper → Bool) : List Nat :=
  (nodes.filter fun n =>
    decide (n.receiving_channel = some channel) && vis sender n &&
      decide (n.protocol.id ≠ sender.protocol.id)).map (·.protocol.id)

/-- The collision-scan loop of `forward_message` (sim.rs lines 215-253):
walk the pending events in time order; stop at the first event that does not
overlap the new transmission's air interval; for each in-flight reception on
the sender's channel, `retain` drops every current recipient visible to the
new sender and marks the pending reception corrupt when at least one
recipient was dropped.  Returns the scanned queue and the surviving
recipients. -/
def collideScan (now : Nat) (sender_id : Nat) (sender_channel : Nat)
    (nodes : List ProtocolWrapper)
    (vis : ProtocolWrapper → ProtocolWrapper → Bool) :
    List Event → List Nat → List Event × List Nat
  | [], recips => ([], recips)
  | e :: rest, recips =>
    if now ≥ e.time ∨ (now + TIME_ON_AIR) % U64 ≤ wsub e.time TIME_ON_AIR then
      (e :: rest, recips)
    else
      match e.message with
      | none =>
        let (q, r) := collideScan now sender_id sender_channel nodes vis rest recips
        (e :: q, r)
      | some mw =>
        if mw.kind = .receive ∧ mw.channel = sender_channel then
          let keep := recips.filter fun r =>
            !(vis (nodeAt nodes sender_id) (nodeAt nodes r))
          let e2 := if recips.any (fun r => vis (nodeAt nodes sender_id) (nodeAt nodes r))
            then { e with message := some { mw with is_corrupt := true } } else e
          let (q, r2) := collideScan now sender_id sender_channel nodes vis rest keep
          (e2 :: q, r2)
        else
          let (q, r2) := collideScan now sender_id sender_channel nodes vis rest recips
          (e :: q, r2)

/-- `forward_message` (sim.rs lines 195-290) with the simulator's shipped
configuration `packet_error_rate_ppt = None` (main.rs line 45), so the
random packet-drop block is inactive: compute the recipients, run the
collision scan, and — when recipients survive — cancel their pending events
and enqueue their `Receive` events at `now + TIME_ON_AIR`. -/
def forwardMessage (departure_time : Nat) (sender_id : Nat) (sender_channel : Nat)
    (message : Message) (event_queue : List Event) (nodes : List ProtocolWrapper)
    (vis : ProtocolWrapper → ProtocolWrapper → Bool) : List Event :=
  let recipients := getRecipients (nodeAt nodes sender_id) sender_channel nodes vis
  let scanned := collideScan departure_time sender_id sender_channel nodes vis
    event_queue recipients
  if scanned.2 = [] then scanned.1
  else
    let queue := scanned.1.filter fun e => !(scanned.2.contains e.node_id)
    scanned.2.foldl
      (fun q r => insertE ⟨(departure_time + TIME_ON_AIR) % U64, r,
        some ⟨.receive, sender_channel, message, false⟩⟩ q) queue

/-- C3 (counterexample): sender node 0 transmits on channel 5 at time 50
while a reception for node 1 (arrival 100, so in the air since 20, well
within the 80 ms air time) is pending and node 2 is also listening on
channel 5 with a pending timeout at 400; everyone sees everyone.  The claim
predicts that only node 1 is dropped and node 2 still receives the message;
the code's `retain` drops every recipient, so the resulting queue marks node
1's reception corrupt and contains no `Receive` event for node 2 at all. -/
theorem forward_message_drops_all_recipients_counterexample :
    forwardMessage 50 0 5 .nack
      [⟨100, 1, some ⟨.receive, 5, .nack, false⟩⟩, ⟨400, 2, none⟩]
      [⟨⟨0, .reset, Context.default, false, none⟩, ⟨0, 0⟩, none⟩,
       ⟨⟨1, .reset, Context.default, false, none⟩, ⟨0, 0⟩, some 5⟩,
       ⟨⟨2, .reset, Context.default, false, none⟩, ⟨0, 0⟩, some 5⟩]
      (fun _ _ => true) =
      [⟨100, 1, some ⟨.receive, 5, .nack, true⟩⟩, ⟨400, 2, none⟩] ∧
    ¬∃ ev ∈ forwardMessage 50 0 5 .nack
      [⟨100, 1, some ⟨.receive, 5, .nack, false⟩⟩, ⟨400, 2, none⟩]
      [⟨⟨0, .reset, Context.default, false, none⟩, ⟨0, 0⟩, none⟩,
       ⟨⟨1, .reset, Context.default, false, none⟩, ⟨0, 0⟩, some 5⟩,
       ⟨⟨2, .reset, Context.default, false, none⟩, ⟨0, 0⟩, some 5⟩]
      (fun _ _ => true), ev.node_id = 2 ∧ ev.message.isSome := by
  constructor
  · decide
  · decide

theorem collideScan_nil_recips (now sid ch : Nat) (nodes : List ProtocolWrapper)
    (vis : ProtocolWrapper → ProtocolWrapper → Bool) :
    ∀ q : List Event, collideScan now sid ch nodes vis q [] = (q, []) := by
  intro q
  induction q with
  | nil => rfl
  | cons e rest ih =>
    unfold collideScan
    split
    · rfl
    · cases hm : e.message with
      | none =>
        dsimp only []
        rw [ih]
      | some mw =>
        dsimp only []
        split
        · simp only [List.filter_nil, List.any_nil, Bool.false_eq_true, if_false]
          rw [ih]
        · rw [ih]

theorem mem_insertE_self (e : Event) (l : List Event) : e ∈ insertE e l := by
  induction l with
  | nil => simp [insertE]
  | cons x xs ih =>
    simp only [insertE]
    split
    · exact List.mem_cons_self _ _
    · exact List.mem_cons.mpr (Or.inr ih)

theorem mem_insertE_of_mem {x : Event} (e : Event) {l : List Event} (h : x ∈ l) :
    x ∈ insertE e l := by
  induction l with
  | nil => cases h
  | cons y ys ih =>
    simp only [insertE]
    split
    · exact List.mem_cons.mpr (Or.inr h)
    · rcases List.mem_cons.mp h with rfl | h
      · exact List.mem_cons_self _ _
      · exact List.mem_cons.mpr (Or.inr (ih h))

theorem mem_foldl_insertE_of_mem (f : Nat → Event) {x : Event} :
    ∀ (rs : List Nat) (q : List Event), x ∈ q →
      x ∈ rs.foldl (fun q r => insertE (f r) q) q := by
  intro rs
  induction rs with
  | nil => intro q h; exact h
  | cons a rs ih => intro q h; exact ih _ (mem_insertE_of_mem _ h)

theorem mem_foldl_insertE (f : Nat → Event) :
    ∀ (rs : List Nat) (q : List Event) (r : Nat), r ∈ rs →
      f r ∈ rs.foldl (fun q r => insertE (f r) q) q := by
  intro rs
  induction rs with
  | nil => intro q r h; cases h
  | cons a rs ih =>
    intro q r hr
    rcases List.mem_cons.mp hr with rfl | hr
    · exact mem_foldl_insertE_of_mem f rs _ (mem_insertE_self _ _)
    · exact ih _ r hr

theorem getRecipients_vis (sender : ProtocolWrapper) (channel : Nat)
    (nodes : List ProtocolWrapper) (vis : ProtocolWrapper → ProtocolWrapper → Bool)
    (hids : ∀ (i : Nat) (h : i < nodes.length), (nodes.get ⟨i, h⟩).protocol.id = i) :
    ∀ r ∈ getRecipients sender channel nodes vis,
      vis sender (nodeAt nodes r) = true := by
  intro r hr
  simp only [getRecipients, List.mem_map, List.mem_filter] at hr
  obtain ⟨n, ⟨hn, hp⟩, hid⟩ := hr
  simp only [Bool.and_eq_true, decide_eq_true_eq] at hp
  obtain ⟨⟨-, hv⟩, -⟩ := hp
  obtain ⟨⟨i, hi⟩, hget⟩ := List.mem_iff_get.mp hn
  have hidx : n.protocol.id = i := by rw [← hget]; exact hids i hi
  have hri : r = i := by rw [← hid, hidx]
  have hnode : nodeAt nodes r = n := by
    rw [hri]
    unfold nodeAt
    rw [List.get?_eq_get hi, hget]
    rfl
  rw [hnode]
  exact hv

/-- C3 (amended): in `forward_message` (ids = vector indices, as the
simulator guarantees), when the earliest pending event is an in-flight
reception on the sender's channel whose air interval overlaps the new
transmission (`|t_a - t_b| < TIME_ON_AIR`, i.e. `now < arrival < now +
2*TIME_ON_AIR`) and the new message has at least one recipient, that pending
reception is marked `is_corrupt` and **every** recipient of the new message
is removed — the `retain` checks each recipient's visibility to the *new*
sender, which holds for all of them by construction — so no node receives
the new message and the rest of the queue is untouched.  When no pending
event overlaps, every recipient's pending event is cancelled and replaced by
a `Receive` event at `now + TIME_ON_AIR`. -/
theorem forward_message_collision_behaviour (now sender_id sender_channel : Nat)
    (msg : Message) (nodes : List ProtocolWrapper)
    (vis : ProtocolWrapper → ProtocolWrapper → Bool)
    (hids : ∀ (i : Nat) (h : i < nodes.length), (nodes.get ⟨i, h⟩).protocol.id = i) :
    (∀ (e : Event) (mw : MessageWrapper) (rest : List Event),
      e.message = some mw → mw.kind = .receive → mw.channel = sender_channel →
      now < e.time → TIME_ON_AIR ≤ e.time → e.time < now + 2 * TIME_ON_AIR →
      now + 2 * TIME_ON_AIR < U64 →
      getRecipients (nodeAt nodes sender_id) sender_channel nodes vis ≠ [] →
      forwardMessage now sender_id sender_channel msg (e :: rest) nodes vis =
        { e with message := some { mw with is_corrupt := true } } :: rest) ∧
    (∀ (queue : List Event),
      (∀ e ∈ queue.head?,
        now ≥ e.time ∨ (now + TIME_ON_AIR) % U64 ≤ wsub e.time TIME_ON_AIR) →
      ∀ r ∈ getRecipients (nodeAt nodes sender_id) sender_channel nodes vis,
        ∃ ev ∈ forwardMessage now sender_id sender_channel msg queue nodes vis,
          ev.node_id = r ∧ ev.time = (now + TIME_ON_AIR) % U64 ∧
            ev.message = some ⟨.receive, sender_channel, msg, false⟩) := by
  have hvisR := getRecipients_vis (nodeAt nodes sender_id) sender_channel nodes vis hids
  constructor
  · intro e mw rest hmsg hkind hch h1 h2 h3 h4 hRne
    have hnb : ¬(now ≥ e.time ∨ (now + TIME_ON_AIR) % U64 ≤ wsub e.time TIME_ON_AIR) := by
      push_neg
      refine ⟨h1, ?_⟩
      have hw : wsub e.time TIME_ON_AIR = e.time - TIME_ON_AIR := by
        unfold wsub U64 TIME_ON_AIR at *
        omega
      have hm2 : (now + TIME_ON_AIR) % U64 = now + TIME_ON_AIR := by
        unfold U64 TIME_ON_AIR at *
        omega
      rw [hw, hm2]
      unfold TIME_ON_AIR at *
      omega
    unfold forwardMessage
    dsimp only []
    unfold collideScan
    rw [if_neg hnb, hmsg]
    dsimp only []
    rw [if_pos (show mw.kind = MessageKind.receive ∧ mw.channel = sender_channel from
      ⟨hkind, hch⟩)]
    have hkeep : (getRecipients (nodeAt nodes sender_id) sender_channel nodes vis).filter
        (fun r => !(vis (nodeAt nodes sender_id) (nodeAt nodes r))) = [] := by
      apply List.filter_eq_nil.mpr
      intro r hrR
      simp [hvisR r hrR]
    have hany : (getRecipients (nodeAt nodes sender_id) sender_channel nodes vis).any
        (fun r => vis (nodeAt nodes sender_id) (nodeAt nodes r)) = true := by
      apply List.any_eq_true.mpr
      cases hRc : getRecipients (nodeAt nodes sender_id) sender_channel nodes vis with
      | nil => exact absurd hRc hRne
      | cons r rs =>
        refine ⟨r, List.mem_cons_self _ _, ?_⟩
        have := hvisR r (by rw [hRc]; exact List.mem_cons_self _ _)
        simp [this]
    rw [hkeep, hany, collideScan_nil_recips]
    dsimp only []
    rw [if_pos rfl, if_pos rfl]
  · intro queue hbreak r hrR
    have hscan : collideScan now sender_id sender_channel nodes vis queue
        (getRecipients (nodeAt nodes sender_id) sender_channel nodes vis) =
        (queue, getRecipients (nodeAt nodes sender_id) sender_channel nodes vis) := by
      cases queue with
      | nil => rfl
      | cons e rest =>
        unfold collideScan
        rw [if_pos (hbreak e (by simp))]
    unfold forwardMessage
    dsimp only []
    rw [hscan]
    dsimp only []
    rw [if_neg (by intro h; rw [h] at hrR; cases hrR)]
    exact ⟨_, mem_foldl_insertE
      (fun r => ⟨(now + TIME_ON_AIR) % U64, r, some ⟨.receive, sender_channel, msg, false⟩⟩)
      _ _ r hrR, rfl, rfl, rfl⟩

/-- Witness for C3 (amended) at the counterexample configuration with a
different channel (3) and times: the overlapping pending reception is
corrupted and nobody receives the new message. -/
theorem forward_message_collision_behaviour_witness :
    forwardMessage 60 0 3 .nack
      [⟨110, 1, some ⟨.receive, 3, .nack, false⟩⟩, ⟨500, 2, none⟩]
      [⟨⟨0, .reset, Context.default, false, none⟩, ⟨0, 0⟩, none⟩,
       ⟨⟨1, .reset, Context.default, false, none⟩, ⟨0, 0⟩, some 3⟩,
       ⟨⟨2, .reset, Context.default, false, none⟩, ⟨0, 0⟩, some 3⟩]
      (fun _ _ => true) =
      [⟨110, 1, some ⟨.receive, 3, .nack, true⟩⟩, ⟨500, 2, none⟩] :=
  (forward_message_collision_behaviour 60 0 3 .nack
      [⟨⟨0, .reset, Context.default, false, none⟩, ⟨0, 0⟩, none⟩,
       ⟨⟨1, .reset, Context.default, false, none⟩, ⟨0, 0⟩, some 3⟩,
       ⟨⟨2, .reset, Context.default, false, none⟩, ⟨0, 0⟩, some 3⟩]
      (fun _ _ => true)
      (by decide)).1
    ⟨110, 1, some ⟨.receive, 3, .nack, false⟩⟩ ⟨.receive, 3, .nack, false⟩
    [⟨500, 2, none⟩] rfl rfl rfl (by decide) (by decide) (by decide) (by decide)
    (by decide)

end Lightning
